import Mathlib

/-!
# Verification of the Candyland concurrent Merkle roll and leaf schema

This file embeds, in Lean 4, the data model and operations of the
`concurrent-merkle-tree` Merkle roll engine and the `bubblegum` leaf schema
of the repository, and proves (or refutes) the frozen claims about them.

Two sources feed the embedding:

* `src/programs/bubblegum/src/state/leaf_schema.rs` is present in the
  repository and is translated directly (`RawLeafSchema`, `LeafSchema`).
* The Merkle roll engine (`MerkleRoll`) is exercised by
  `src/lib/concurrent-merkle-tree/tests/tests.rs` but its implementation
  file is not part of the source tree; the engine here is modelled from the
  specification (each such definition carries a doc comment starting with
  `Modelled from the spec:`), with the repository's tests pinning behavior
  where the specification is ambiguous.

The hash primitive is modelled as a free term algebra (`Node.hash` is a
constructor), i.e. an ideal collision-free hash.  This makes Merkle roots
injective in the leaf assignment, which is the standard idealization for
reasoning about Merkle-tree data structures, and keeps every definition
executable and decidable on concrete inputs.
-/

set_option maxRecDepth 20000

namespace Candyland

/-! ## Leaf schema (from `src/programs/bubblegum/src/state/leaf_schema.rs`) -/

/-- A byte string; each entry is intended to be `< 256`. -/
abbrev Bytes := List Nat

/-- Little-endian byte serialization of a natural number into `k` bytes,
mirroring Rust's `u128::to_le_bytes` when `k = 16`. -/
def leBytes : Nat → Nat → Bytes
  | 0, _ => []
  | k + 1, n => n % 256 :: leBytes k (n / 256)

/-- The 16 little-endian bytes of a `u128` nonce (`nonce.to_le_bytes()`). -/
def nonceLeBytes (n : Nat) : Bytes := leBytes 16 n

/-- Little-endian value of a byte string (base 256). -/
def fromLeBytes : Bytes → Nat
  | [] => 0
  | b :: r => b + 256 * fromLeBytes r

/-- `RawLeafSchema` from `leaf_schema.rs`: owner and delegate are 32-byte
public keys, `nonce` a `u128`, `data` raw bytes. -/
structure RawLeafSchema where
  owner : Bytes
  delegate : Bytes
  nonce : Nat
  data : Bytes
deriving DecidableEq, Repr

/-- `RawLeafSchema::new`. -/
def RawLeafSchema.new (owner delegate : Bytes) (nonce : Nat) (data : Bytes) :
    RawLeafSchema :=
  { owner := owner, delegate := delegate, nonce := nonce, data := data }

/-- `RawLeafSchema::to_node`: `keccak::hashv` over the four segments, with the
hash function taken as a parameter (it lives in the external
`solana_program::keccak` crate).  `hashv` of several slices hashes their
concatenation. -/
def RawLeafSchema.to_node (keccak : Bytes → Bytes) (s : RawLeafSchema) : Bytes :=
  keccak (s.owner ++ s.delegate ++ nonceLeBytes s.nonce ++ keccak s.data)

/-- `LeafSchema` from `leaf_schema.rs`: like `RawLeafSchema` but carrying a
pre-computed 32-byte `data_hash` instead of the raw data. -/
structure LeafSchema where
  owner : Bytes
  delegate : Bytes
  nonce : Nat
  data_hash : Bytes
deriving DecidableEq, Repr

/-- `LeafSchema::new`. -/
def LeafSchema.new (owner delegate : Bytes) (nonce : Nat) (data_hash : Bytes) :
    LeafSchema :=
  { owner := owner, delegate := delegate, nonce := nonce, data_hash := data_hash }

/-- `LeafSchema::to_node`. -/
def LeafSchema.to_node (keccak : Bytes → Bytes) (s : LeafSchema) : Bytes :=
  keccak (s.owner ++ s.delegate ++ nonceLeBytes s.nonce ++ s.data_hash)

/-! ## Nodes and reference Merkle trees

The engine's 32-byte node values are modelled as a free term algebra: `empty`
is the distinguished `EMPTY` (32 zero bytes), `leaf n` an external opaque
leaf value, and `hash l r` the digest of the pair — an ideal collision-free
hash, so distinct trees have distinct roots. -/

/-- A 32-byte node value, idealized. -/
inductive Node where
  | empty : Node
  | leaf : Nat → Node
  | hash : Node → Node → Node
deriving DecidableEq, Repr, Inhabited

/-- A full assignment of leaf slots to node values. -/
abbrev LeafF := Nat → Node

/-- The all-`EMPTY` assignment. -/
def emptyL : LeafF := fun _ => Node.empty

/-- Point update of a leaf assignment. -/
def updateL (L : LeafF) (i : Nat) (v : Node) : LeafF :=
  fun j => if j = i then v else L j

/-- Root of the empty subtree of height `h` (the precomputed empty-roots
table: height `h` empty root is the hash-pair of two height `h - 1` ones). -/
def emptyRoot : Nat → Node
  | 0 => Node.empty
  | h + 1 => Node.hash (emptyRoot h) (emptyRoot h)

/-- Reference full-tree recomputation: the root of the height-`h` subtree at
horizontal position `k`, covering leaf slots `[k * 2^h, (k+1) * 2^h)`. -/
def subRoot (L : LeafF) : Nat → Nat → Node
  | 0, k => L k
  | h + 1, k => Node.hash (subRoot L h (2 * k)) (subRoot L h (2 * k + 1))

/-- One level of leaves-to-parents coarsening. -/
def coarsen (L : LeafF) : LeafF :=
  fun k => Node.hash (L (2 * k)) (L (2 * k + 1))

/-- `hash_to_parent` from the spec: hash `child` with `sibling`, ordered by
which side the child is on. -/
def hashToParent (child sibling : Node) (childIsLeft : Bool) : Node :=
  if childIsLeft then Node.hash child sibling else Node.hash sibling child

/-- `recompute` from the spec: bubble a leaf up a sibling path; at height `h`
the `h`-th bit of `index` says which side the running node is on. -/
def recompute : Node → List Node → Nat → Node
  | node, [], _ => node
  | node, s :: rest, i => recompute (hashToParent node s (i % 2 = 0)) rest (i / 2)

/-- The sibling of a horizontal position: flip the lowest bit. -/
def sib (x : Nat) : Nat := if x % 2 = 0 then x + 1 else x - 1

/-- The sibling path (authentication path) of leaf slot `s` in the depth-`dep`
tree over assignment `L`: at height `t` the root of the sibling subtree. -/
def sibList (L : LeafF) (s : Nat) (dep : Nat) : List Node :=
  List.ofFn (fun t : Fin dep => subRoot L t (sib (s / 2 ^ t.1)))

/-- The ancestor path of leaf slot `s` in the depth-`dep` tree over `L`: at
height `t` the root of the subtree containing `s`. -/
def pathList (L : LeafF) (s : Nat) (dep : Nat) : List Node :=
  List.ofFn (fun t : Fin dep => subRoot L t (s / 2 ^ t.1))

/-- Fuel-driven worker for the divergence height; the fuel only bounds the
recursion depth and `dh` always supplies enough of it. -/
def dhAux : Nat → Nat → Nat → Nat
  | 0, _, _ => 0
  | fuel + 1, i, j =>
    if i = j then 0
    else if i / 2 = j / 2 then 0
    else dhAux fuel (i / 2) (j / 2) + 1

/-- Divergence height of two leaf indices: the height at which their paths
to the root first merge minus one; equivalently the position of their highest
differing bit.  (Total; returns `0` when the indices are equal.) -/
def dh (i j : Nat) : Nat := dhAux (i + j) i j

/-! ## The Merkle roll engine

Modelled from the spec: the engine implementation is not part of the source
tree (only its test suite is), so every definition in this section transcribes
§3–§4 of the specification, with the repository's tests
(`src/lib/concurrent-merkle-tree/tests/tests.rs`) fixing the points the
specification leaves open.  State is passed explicitly; fallible operations
return `Except CMTError`. -/

/-- The engine's error kinds (spec §7). -/
inductive CMTError where
  | TreeAlreadyInitialized : CMTError
  | TreeFull : CMTError
  | LeafContentsModified : CMTError
  | RootNotFound : CMTError
  | InvalidProof : CMTError
  | Misaligned : CMTError
  | IndexOutOfBounds : CMTError
deriving DecidableEq, Repr

/-- Modelled from the spec: a change log records one mutation — the resulting
root, the mutated leaf's path of ancestors at heights `0 … D-1`, and the
mutated leaf's index. -/
structure ChangeLog where
  root : Node
  path : List Node
  index : Nat
deriving DecidableEq, Repr, Inhabited

/-- Modelled from the spec: the sibling path of the next-to-append slot,
the number of leaves appended so far, and the current rightmost leaf. -/
structure RightmostProof where
  proof : List Node
  index : Nat
  leaf : Node
deriving DecidableEq, Repr, Inhabited

/-- Modelled from the spec: the Merkle roll state (spec §3), with the
compile-time parameters `D` (depth) and `B` (ring capacity) carried as
fields.  `changeLogs` is the ring, a list of length `maxBufferSize`. -/
structure MerkleRoll where
  maxDepth : Nat
  maxBufferSize : Nat
  sequenceNumber : Nat
  activeIndex : Nat
  bufferSize : Nat
  changeLogs : List ChangeLog
  rightmostProof : RightmostProof
deriving DecidableEq, Repr, Inhabited

/-- The ring entry `d` steps behind the active cursor (spec §4.2);
meaningful for `d ≤ maxBufferSize`. -/
def ringAt (m : MerkleRoll) (d : Nat) : ChangeLog :=
  m.changeLogs.getD ((m.activeIndex + m.maxBufferSize - d) % m.maxBufferSize) default

/-- `get_change_log()`: the entry at the active cursor. -/
def getChangeLog (m : MerkleRoll) : ChangeLog :=
  m.changeLogs.getD m.activeIndex default

/-- Publishing a new change log (spec §4.2): advance the cursor, write the
entry, bump `buffer_size` (capped) and `sequence_number`; the caller also
installs the updated rightmost proof. -/
def publish (m : MerkleRoll) (cl : ChangeLog) (rmp : RightmostProof) : MerkleRoll :=
  { m with
    activeIndex := (m.activeIndex + 1) % m.maxBufferSize,
    changeLogs := m.changeLogs.set ((m.activeIndex + 1) % m.maxBufferSize) cl,
    bufferSize := min (m.bufferSize + 1) m.maxBufferSize,
    sequenceNumber := m.sequenceNumber + 1,
    rightmostProof := rmp }

/-- `MerkleRoll::new()`: the zeroed, not-yet-initialized roll. -/
def newRoll (D B : Nat) : MerkleRoll :=
  { maxDepth := D, maxBufferSize := B, sequenceNumber := 0, activeIndex := 0,
    bufferSize := 0, changeLogs := List.replicate B default,
    rightmostProof := { proof := List.replicate D Node.empty, index := 0, leaf := Node.empty } }

/-- The change log installed by `initialize`: empty-tree root, path of
empty-subtree roots, index 0 (spec §4.3). -/
def initEntry (D : Nat) : ChangeLog :=
  { root := emptyRoot D, path := List.ofFn (fun h : Fin D => emptyRoot h.1), index := 0 }

/-- The state produced by a successful `initialize` (spec §4.3): every slot
zeroed, slot 0 holding the empty-tree entry, the rightmost proof holding the
empty-subtree roots, `buffer_size = 1`, `active_index = 0`. -/
def initMut (m : MerkleRoll) : MerkleRoll :=
  { m with
    sequenceNumber := 0, activeIndex := 0, bufferSize := 1,
    changeLogs := (List.replicate m.maxBufferSize default).set 0 (initEntry m.maxDepth),
    rightmostProof :=
      { proof := List.ofFn (fun h : Fin m.maxDepth => emptyRoot h.1),
        index := 0, leaf := Node.empty } }

/-- Modelled from the spec: `initialize` fails on an active roll (detected by
`sequence_number != 0` or `buffer_size != 0`). -/
def MerkleRoll.initialize (m : MerkleRoll) : Except CMTError MerkleRoll :=
  if m.sequenceNumber = 0 ∧ m.bufferSize = 0 then Except.ok (initMut m)
  else Except.error CMTError.TreeAlreadyInitialized

/-- The effective sibling list consumed by an append starting at height `h`:
where a bit of the frontier index is 1 the stored proof entry is the (left)
sibling, where it is 0 the sibling is the empty subtree root (spec §4.3,
append steps 3–4). -/
def appendSibs : List Node → Nat → Nat → List Node
  | [], _, _ => []
  | p :: rest, i, h =>
    (if i % 2 = 1 then p else emptyRoot h) :: appendSibs rest (i / 2) (h + 1)

/-- The rightmost proof after an append: at 0-bit heights the current path
node is recorded, at 1-bit heights the old entry is kept (spec §4.3, append
step 3). -/
def recordProof : List Node → List Node → Nat → List Node
  | [], _, _ => []
  | p :: rest, [], _ => p :: rest
  | p :: rest, q :: qrest, i =>
    (if i % 2 = 1 then p else q) :: recordProof rest qrest (i / 2)

/-- Bubble a node up a sibling list, returning the implied root together with
the list of intermediate nodes (the change-log path, heights `0 … D-1`). -/
def bubblePath : Node → List Node → Nat → Node × List Node
  | node, [], _ => (node, [])
  | node, s :: rest, i =>
    let r := bubblePath (hashToParent node s (i % 2 = 0)) rest (i / 2)
    (r.1, node :: r.2)

/-- The state produced by a successful `append` (spec §4.3). -/
def appendOk (m : MerkleRoll) (leaf : Node) : MerkleRoll :=
  let i := m.rightmostProof.index
  let rp := bubblePath leaf (appendSibs m.rightmostProof.proof i 0) i
  publish m { root := rp.1, path := rp.2, index := i }
    { proof := recordProof m.rightmostProof.proof rp.2 i, index := i + 1, leaf := leaf }

/-- Modelled from the spec: `append` fails with `TreeFull` when the frontier
has reached `2 ^ D`. -/
def MerkleRoll.append (m : MerkleRoll) (leaf : Node) : Except CMTError MerkleRoll :=
  if m.rightmostProof.index = 2 ^ m.maxDepth then Except.error CMTError.TreeFull
  else Except.ok (appendOk m leaf)

/-- Fuel-driven worker for the ring search: `r` live entries remain to scan
starting at distance `d`. -/
def findRootAux (m : MerkleRoll) (root : Node) : Nat → Nat → Option Nat
  | _, 0 => none
  | d, r + 1 =>
    if (ringAt m d).root = root then some d else findRootAux m root (d + 1) r

/-- Walk the ring backward from the active cursor looking for the entry whose
root matches (spec §4.3, set_leaf step 1); returns the distance of the first
match among the `buffer_size` live entries. -/
def findRootFrom (m : MerkleRoll) (root : Node) (d : Nat) : Option Nat :=
  findRootAux m root d (m.bufferSize - d)

/-- Fast-forward one change log onto a proof (spec §4.3, set_leaf step 2):
an entry for a different leaf patches the proof at the divergence height with
the entry's path node there; an entry for the same leaf patches nothing. -/
def applyEntry (cl : ChangeLog) (index : Nat) (proof : List Node) : List Node :=
  if cl.index = index then proof
  else if dh index cl.index < proof.length then
    proof.set (dh index cl.index) (cl.path.getD (dh index cl.index) default)
  else proof

/-- Replay the change logs strictly newer than the entry at distance `d`
(chronologically: distances `d-1, …, 1, 0`) onto a proof. -/
def fastForward (m : MerkleRoll) (index : Nat) (proof : List Node) : Nat → List Node
  | 0 => proof
  | d + 1 => fastForward m index (applyEntry (ringAt m d) index proof) d

/-- The state produced by a successful `set_leaf` (spec §4.3, steps 4–5):
bubble the new leaf up the fast-forwarded proof and publish; patch the
rightmost proof at the divergence height from the new path, and update the
rightmost leaf when the mutated slot is the rightmost one. -/
def setLeafOk (m : MerkleRoll) (newLeaf : Node) (ff : List Node) (index : Nat) : MerkleRoll :=
  let rp := bubblePath newLeaf ff index
  let hstar := dh index m.rightmostProof.index
  publish m { root := rp.1, path := rp.2, index := index }
    { proof :=
        if hstar < m.maxDepth then
          m.rightmostProof.proof.set hstar (rp.2.getD hstar default)
        else m.rightmostProof.proof,
      index := m.rightmostProof.index,
      leaf :=
        if index + 1 = m.rightmostProof.index then newLeaf
        else m.rightmostProof.leaf }

/-- The state produced by a successful `set_leaf` at the frontier slot itself
(spec §4.3, step 5 last clause, pinned by `test_append_bug_repro_2`): the
verified fast-forwarded proof is the exact sibling path of the frontier slot,
so the new leaf is bubbled up it and published, the frontier advances by one,
the new leaf becomes the rightmost leaf, and the rightmost proof is
maintained exactly as an append maintains it — record the new path at 0-bit
heights, keep the proof at 1-bit heights. -/
def setLeafFrontierOk (m : MerkleRoll) (newLeaf : Node) (ff : List Node) (index : Nat) :
    MerkleRoll :=
  let rp := bubblePath newLeaf ff index
  publish m { root := rp.1, path := rp.2, index := index }
    { proof := recordProof ff rp.2 index, index := index + 1, leaf := newLeaf }

/-- Modelled from the spec: `set_leaf` (spec §4.3).  Reconcile the supplied
root against the ring, fast-forward the proof, verify it recomputes to the
current root, then publish; when the index is the frontier slot itself the
operation also advances the rightmost frontier (spec §4.3, step 5, pinned by
`test_append_bug_repro_2`).  Indices strictly beyond the frontier address
leaves that do not exist yet and are rejected — publishing there would make
later appends diverge from the reference tree; spec §7 assigns no error kind
to this rejection (`IndexOutOfBounds` is reserved for `index ≥ 2^D`), and
the model reports `InvalidProof`, the proof claiming a leaf the tree has not
yet defined. -/
def MerkleRoll.set_leaf (m : MerkleRoll) (root previousLeaf newLeaf : Node)
    (proofVec : List Node) (index : Nat) : Except CMTError MerkleRoll :=
  if 2 ^ m.maxDepth ≤ index then Except.error CMTError.IndexOutOfBounds
  else if proofVec.length ≠ m.maxDepth then Except.error CMTError.InvalidProof
  else if m.rightmostProof.index < index then Except.error CMTError.InvalidProof
  else
    match findRootFrom m root 0 with
    | none => Except.error CMTError.RootNotFound
    | some d =>
      let ff := fastForward m index proofVec d
      if recompute previousLeaf ff index = (getChangeLog m).root then
        if index = m.rightmostProof.index then
          Except.ok (setLeafFrontierOk m newLeaf ff index)
        else Except.ok (setLeafOk m newLeaf ff index)
      else Except.error CMTError.LeafContentsModified

/-- Modelled from the spec and the tests: `prove_leaf` runs the same
reconciliation as `set_leaf` but publishes nothing.  When the supplied root is
no longer buffered the proof may still be *inferred*: the whole buffer is
replayed onto it and the result checked against the current root — the test
`test_prove_leaf` requires proofs exactly `buffer_size` mutations old (whose
root has just left the ring) to verify, which is impossible with the ring
lookup alone.  A failed inferred proof reports `RootNotFound`. -/
def MerkleRoll.prove_leaf (m : MerkleRoll) (root leaf : Node)
    (proofVec : List Node) (index : Nat) : Except CMTError Unit :=
  if 2 ^ m.maxDepth ≤ index then Except.error CMTError.IndexOutOfBounds
  else if proofVec.length ≠ m.maxDepth then Except.error CMTError.InvalidProof
  else
    match findRootFrom m root 0 with
    | some d =>
      if recompute leaf (fastForward m index proofVec d) index = (getChangeLog m).root then
        Except.ok ()
      else Except.error CMTError.LeafContentsModified
    | none =>
      if recompute leaf (fastForward m index proofVec m.bufferSize) index
          = (getChangeLog m).root then
        Except.ok ()
      else Except.error CMTError.RootNotFound

/-- The root a (possibly partially filled) subtree implies for its rightmost
leaf, rightmost position and internal proof: bubble the rightmost leaf up
append-style (empty siblings at 0-bit heights). -/
def subtreeRootOf (rml : Node) (proof : List Node) (j : Nat) : Node :=
  (bubblePath rml (appendSibs proof j 0) j).1

/-- The state produced by a successful `append_subtree_direct`: the subtree
root is treated as a single node at height `d` and bubbled up the retained
upper rightmost proof; the new frontier is `index + subtree_rightmost_index`
(the first unfilled slot, as fixed by `test_append_incomplete_subtree`), the
new rightmost leaf is the subtree's, and the lower rightmost proof is the
subtree's own proof. -/
def spliceOk (m : MerkleRoll) (root rml : Node) (rmi : Nat) (proof : List Node) : MerkleRoll :=
  let d := proof.length
  let i := m.rightmostProof.index
  let lower := bubblePath rml (appendSibs proof (rmi - 1) 0) (rmi - 1)
  let upper := bubblePath root (appendSibs (m.rightmostProof.proof.drop d) (i / 2 ^ d) d) (i / 2 ^ d)
  publish m { root := upper.1, path := lower.2 ++ upper.2, index := i + rmi - 1 }
    { proof := proof ++ recordProof (m.rightmostProof.proof.drop d) upper.2 (i / 2 ^ d),
      index := i + rmi, leaf := rml }

/-- Modelled from the spec: `append_subtree_direct` (spec §4.3) splices a
depth-`d` subtree (`d` is the supplied proof's length) onto a `2^d`-aligned
frontier, after verifying that the subtree's rightmost leaf, rightmost index
and proof recompute to the supplied subtree root. -/
def MerkleRoll.append_subtree_direct (m : MerkleRoll) (root rml : Node) (rmi : Nat)
    (proof : List Node) : Except CMTError MerkleRoll :=
  let d := proof.length
  let i := m.rightmostProof.index
  if m.maxDepth < d then Except.error CMTError.InvalidProof
  else if i % 2 ^ d ≠ 0 then Except.error CMTError.Misaligned
  else if 2 ^ m.maxDepth < i + 2 ^ d then Except.error CMTError.TreeFull
  else if rmi = 0 ∨ 2 ^ d < rmi then Except.error CMTError.InvalidProof
  else if subtreeRootOf rml proof (rmi - 1) = root then
    Except.ok (spliceOk m root rml rmi proof)
  else Except.error CMTError.InvalidProof

/-- Apply a list of perfect subtree pieces (proof, rightmost leaf, root) in
order, each through the direct splice; the first failing piece aborts. -/
def applyPieces (m : MerkleRoll) : List (List Node × Node × Node) → Except CMTError MerkleRoll
  | [] => Except.ok m
  | (pf, rml, rt) :: rest => do
    let m' ← m.append_subtree_direct rt rml (2 ^ pf.length) pf
    applyPieces m' rest

/-- Modelled from the spec and the tests: `append_subtree_packed` applies `k`
perfect pieces, each aligned at the advancing frontier.  The two packed-append
tests pin the application order: pieces `1 … k-1` are applied first, in array
order, and piece `0` (the decomposition's final single-leaf fragment, which
becomes the new rightmost leaf) is applied last. -/
def MerkleRoll.append_subtree_packed (m : MerkleRoll) (proofs : List (List Node))
    (rmls roots : List Node) : Except CMTError MerkleRoll :=
  if proofs.length = 0 ∨ rmls.length ≠ proofs.length ∨ roots.length ≠ proofs.length then
    Except.error CMTError.InvalidProof
  else
    let pieces := (proofs.zip (rmls.zip roots)).map (fun p => (p.1, p.2.1, p.2.2))
    applyPieces m (pieces.tail ++ pieces.take 1)

/-- Extract the success state of an engine call, with a fallback. -/
def okOr (e : Except CMTError MerkleRoll) (d : MerkleRoll) : MerkleRoll :=
  match e with
  | Except.ok m => m
  | Except.error _ => d

/-! ## Reachable states and the engine invariant -/

/-- The states reachable through `initialize`, successful `append`s and
successful `set_leaf`s, together with the reference leaf assignment: an
append writes its leaf at slot `rightmost_proof.index` (spec §4.3) and a
set_leaf overwrites slot `index`, exactly as the off-chain reference tree of
the tests records them. -/
inductive Reach : MerkleRoll → LeafF → Prop where
  | init (D B : Nat) (hB : 1 ≤ B) : Reach (initMut (newRoll D B)) emptyL
  | app {m : MerkleRoll} {L : LeafF} (v : Node) (h : Reach m L)
      (hlt : m.rightmostProof.index < 2 ^ m.maxDepth) :
      Reach (appendOk m v) (updateL L m.rightmostProof.index v)
  | set {m m' : MerkleRoll} {L : LeafF} {root prev v : Node} {pf : List Node} {i : Nat}
      (h : Reach m L) (hs : m.set_leaf root prev v pf i = Except.ok m') :
      Reach m' (updateL L i v)

/-- A snapshot of the tree after one mutation: the leaf assignment and the
index the mutation touched. -/
structure Snap where
  L : LeafF
  idx : Nat

/-- Placeholder snapshot. -/
def defaultSnap : Snap := { L := emptyL, idx := 0 }

/-- The change log a snapshot induces: its root, the mutated leaf's ancestor
path, its index. -/
def entryOf (D : Nat) (sn : Snap) : ChangeLog :=
  { root := subRoot sn.L D 0, path := pathList sn.L sn.idx D, index := sn.idx }

/-- The engine invariant: the roll's state agrees with the history of
snapshots `snaps` (newest first; one per mutation plus the initial state).
It packages spec §3's invariants: ring geometry, ring contents, the
single-mutation chain between consecutive snapshots, emptiness beyond the
frontier, and correctness of the rightmost proof at every 1-bit height. -/
structure Inv (m : MerkleRoll) (snaps : List Snap) : Prop where
  bpos : 1 ≤ m.maxBufferSize
  slen : snaps.length = m.sequenceNumber + 1
  bsize : m.bufferSize = min (m.sequenceNumber + 1) m.maxBufferSize
  act : m.activeIndex = m.sequenceNumber % m.maxBufferSize
  clen : m.changeLogs.length = m.maxBufferSize
  ring : ∀ d, d < m.bufferSize → ringAt m d = entryOf m.maxDepth (snaps.getD d defaultSnap)
  chainIdx : ∀ d, d + 1 < snaps.length → (snaps.getD d defaultSnap).idx < 2 ^ m.maxDepth
  chainL : ∀ d, d + 1 < snaps.length → ∀ x, x ≠ (snaps.getD d defaultSnap).idx →
      (snaps.getD d defaultSnap).L x = (snaps.getD (d + 1) defaultSnap).L x
  plen : m.rightmostProof.proof.length = m.maxDepth
  ple : m.rightmostProof.index ≤ 2 ^ m.maxDepth
  empt : ∀ j, m.rightmostProof.index ≤ j → (snaps.getD 0 defaultSnap).L j = Node.empty
  rmpP : ∀ h, h < m.maxDepth → (m.rightmostProof.index / 2 ^ h) % 2 = 1 →
      m.rightmostProof.proof.getD h default =
        subRoot (snaps.getD 0 defaultSnap).L h (m.rightmostProof.index / 2 ^ h - 1)
  rmpL : m.rightmostProof.leaf =
      (if m.rightmostProof.index = 0 then Node.empty
       else (snaps.getD 0 defaultSnap).L (m.rightmostProof.index - 1))

/-- Evolution of a roll by `k` further successful mutations (appends and
set_leafs), none of which sets the distinguished slot `i`; the reference
assignment is carried along.  This captures the window between taking a
proof of leaf `i` and presenting it again. -/
inductive Evolve (i : Nat) : MerkleRoll → LeafF → Nat → MerkleRoll → LeafF → Prop where
  | refl (m : MerkleRoll) (L : LeafF) : Evolve i m L 0 m L
  | app {m : MerkleRoll} {L : LeafF} {k : Nat} {m' : MerkleRoll} {L' : LeafF} (v : Node)
      (h : Evolve i m L k m' L') (hlt : m'.rightmostProof.index < 2 ^ m'.maxDepth) :
      Evolve i m L (k + 1) (appendOk m' v) (updateL L' m'.rightmostProof.index v)
  | set {m : MerkleRoll} {L : LeafF} {k : Nat} {m' : MerkleRoll} {L' : LeafF}
      {m'' : MerkleRoll} {root prev v : Node} {pf : List Node} {j : Nat}
      (h : Evolve i m L k m' L') (hs : m'.set_leaf root prev v pf j = Except.ok m'')
      (hne : j ≠ i) :
      Evolve i m L (k + 1) m'' (updateL L' j v)

/-! ## Concrete runs used by witnesses and counterexamples -/

/-- Run a list of appends, stopping at the first error. -/
def runAppends (m : MerkleRoll) : List Node → Except CMTError MerkleRoll
  | [] => Except.ok m
  | v :: r =>
    match m.append v with
    | Except.ok m' => runAppends m' r
    | Except.error e => Except.error e

/-- `k` distinct opaque leaf values starting at tag `a`. -/
def natLeaves (a k : Nat) : List Node := (List.range k).map (fun n => Node.leaf (a + n))

/-- The reference assignment after appending `vs` in order at slots `0, 1, …`. -/
def assignList (vs : List Node) : LeafF := fun j => vs.getD j Node.empty

/-- A roll of depth `D` and ring capacity `B` filled by appending `vs` in
order after initialization. -/
def fillRoll (D B : Nat) (vs : List Node) : MerkleRoll :=
  okOr (runAppends (initMut (newRoll D B)) vs) (initMut (newRoll D B))

/-- C2 run: depth 4, ring capacity 4, ten appended leaves. -/
def c2m10 : MerkleRoll := fillRoll 4 4 (natLeaves 0 10)

/-- C2 run: the reference assignment of the ten appended leaves. -/
def c2L10 : LeafF := assignList (natLeaves 0 10)

/-- One replace with the current root and a fresh correct proof, tracking the
reference assignment. -/
def replaceStep (D : Nat) (p : MerkleRoll × LeafF) (j : Nat) (v : Node) : MerkleRoll × LeafF :=
  (okOr ((p.1).set_leaf (subRoot p.2 D 0) (p.2 j) v (sibList p.2 j D) j) p.1,
   updateL p.2 j v)

/-- C2 run: after four further replaces (the full ring capacity) on leaves
1, 2, 3, 4 — none touching leaf 0. -/
def c2Final : MerkleRoll × LeafF :=
  replaceStep 4 (replaceStep 4 (replaceStep 4 (replaceStep 4 (c2m10, c2L10)
    1 (Node.leaf 70)) 2 (Node.leaf 71)) 3 (Node.leaf 72)) 4 (Node.leaf 73)

/-- C3 witness run: depth 2, one appended leaf. -/
def c3m1 : MerkleRoll := appendOk (initMut (newRoll 2 4)) (Node.leaf 1)

/-- C3 witness run: its reference assignment. -/
def c3L1 : LeafF := updateL emptyL 0 (Node.leaf 1)

/-- C3 witness run: leaf 0 overwritten through a successful set_leaf with the
saved root and proof. -/
def c3m2 : MerkleRoll :=
  okOr (c3m1.set_leaf (subRoot c3L1 2 0) (Node.leaf 1) (Node.leaf 2) (sibList c3L1 0 2) 0) c3m1

/-- C5 counterexample run: depth 5 roll holding four leaves. -/
def c5Big4 : MerkleRoll := fillRoll 5 8 (natLeaves 0 4)

/-- C5 counterexample run: a depth-2 subtree roll holding two leaves (half
filled). -/
def c5Sub2 : MerkleRoll := fillRoll 2 8 (natLeaves 20 2)

/-- C5 counterexample run: the partially filled subtree spliced onto the
aligned frontier 4. -/
def c5Spliced : MerkleRoll :=
  okOr (c5Big4.append_subtree_direct (getChangeLog c5Sub2).root c5Sub2.rightmostProof.leaf
    c5Sub2.rightmostProof.index c5Sub2.rightmostProof.proof) c5Big4

/-- C5 counterexample run: the reference assignment after the splice (slots
0–3 the first fill, slots 4–5 the subtree's two leaves, slots 6–7 empty). -/
def c5RefL : LeafF := assignList (natLeaves 0 4 ++ natLeaves 20 2)

/-- C9 witness run: leaf 0 re-set to its current value with the current root
and proof. -/
def c9m2 : MerkleRoll :=
  okOr (c3m1.set_leaf (subRoot c3L1 2 0) (Node.leaf 1) (Node.leaf 1) (sibList c3L1 0 2) 0) c3m1

/-- C5 run (complete scenario): depth-5 roll holding eight leaves (frontier 8,
`2^3`-aligned). -/
def c5Big8 : MerkleRoll := fillRoll 5 8 (natLeaves 0 8)

/-- C5 run: a full depth-3 subtree roll of eight leaves. -/
def c5Sub8 : MerkleRoll := fillRoll 3 8 (natLeaves 20 8)

/-- C5 run: the complete subtree spliced onto the aligned frontier 8. -/
def c5SplicedC : MerkleRoll :=
  okOr (c5Big8.append_subtree_direct (getChangeLog c5Sub8).root c5Sub8.rightmostProof.leaf
    c5Sub8.rightmostProof.index c5Sub8.rightmostProof.proof) c5Big8

/-- C5 run: the reference assignment after the complete splice (the sixteen
leaves appended leaf-by-leaf in order). -/
def c5RefC : LeafF := assignList (natLeaves 0 8 ++ natLeaves 20 8)

/-- C5 run: an ordinary append following the complete splice. -/
def c5NextC : MerkleRoll := okOr (c5SplicedC.append (Node.leaf 77)) c5SplicedC

/-- C5 run: an ordinary append following the incomplete splice. -/
def c5NextI : MerkleRoll := okOr (c5Spliced.append (Node.leaf 77)) c5Spliced

/-- C6 run: depth-4 roll holding one appended leaf (frontier 1, unaligned). -/
def c6m1 : MerkleRoll := fillRoll 4 8 [Node.leaf 0]

/-- C6 run: the leaves `l0 … l7` of the packed depth-3 subtree. -/
def c6l (n : Nat) : Node := Node.leaf (10 + n)

/-- C6 run: the packed depth-3 splice with pieces of sizes 1, 1, 2, 4, built
exactly as the repository test builds them (piece 0 the final single leaf
`l7`, then `l6`, the pair `l4 l5`, and the quad `l0 … l3`). -/
def c6Packed3 : Except CMTError MerkleRoll :=
  c6m1.append_subtree_packed
    [[], [], [c6l 4], [c6l 2, Node.hash (c6l 0) (c6l 1)]]
    [c6l 7, c6l 6, c6l 5, c6l 3]
    [c6l 7, c6l 6, Node.hash (c6l 4) (c6l 5),
      Node.hash (Node.hash (c6l 0) (c6l 1)) (Node.hash (c6l 2) (c6l 3))]

/-- C6 run: the success state of the depth-3 packed splice. -/
def c6m3Done : MerkleRoll := okOr c6Packed3 c6m1

/-- C6 run: the placement the claim documents for the depth-3 packed splice. -/
def c6L3 : LeafF :=
  assignList [Node.leaf 0, c6l 6, c6l 4, c6l 5, c6l 0, c6l 1, c6l 2, c6l 3, c6l 7]

/-- C6 run: the packed depth-1 splice with two single-leaf pieces `m0, m1`. -/
def c6Packed1 : Except CMTError MerkleRoll :=
  c6m1.append_subtree_packed [[], []] [Node.leaf 30, Node.leaf 31] [Node.leaf 30, Node.leaf 31]

/-- C6 run: the success state of the depth-1 packed splice. -/
def c6m1Done : MerkleRoll := okOr c6Packed1 c6m1

/-- C6 run: the placement the claim documents for the depth-1 packed splice. -/
def c6L1 : LeafF := assignList [Node.leaf 0, Node.leaf 31, Node.leaf 30]

/-- C9 counterexample run: `set_leaf` of the EMPTY frontier slot 1 to EMPTY,
with the current root and a fresh correct proof. -/
def c9f : MerkleRoll :=
  okOr (c3m1.set_leaf (subRoot c3L1 2 0) Node.empty Node.empty (sibList c3L1 1 2) 1) c3m1

/-- C2 run: one further replace (leaf 5) after the four of `c2Final` — the
saved proof of leaf 0 is now `buffer_size + 1` mutations old. -/
def c2Five : MerkleRoll × LeafF := replaceStep 4 c2Final 5 (Node.leaf 74)

/-- C2 counterexample run: five replaces all at leaf 1 (values 80–84) after
the ten appends — the saved proof of leaf 0 is `buffer_size + 1` mutations
old, yet every stale position of it is repaired by the newest entry alone. -/
def c2Same : MerkleRoll × LeafF :=
  replaceStep 4 (replaceStep 4 (replaceStep 4 (replaceStep 4 (replaceStep 4 (c2m10, c2L10)
    1 (Node.leaf 80)) 1 (Node.leaf 81)) 1 (Node.leaf 82)) 1 (Node.leaf 83)) 1 (Node.leaf 84)

/-- The reference assignment after splicing the `rmi` filled leaves of a
subtree assignment `S` onto the frontier `i`: exactly the assignment obtained
by appending `S 0, …, S (rmi - 1)` leaf-by-leaf in order at `i`. -/
def spliceL (L : LeafF) (i rmi : Nat) (S : LeafF) : LeafF :=
  fun x => if i ≤ x ∧ x < i + rmi then S (x - i) else L x

/-- C5 witness run: the reference assignment of the four-leaf depth-5 roll. -/
def c5L4 : LeafF :=
  updateL (updateL (updateL (updateL emptyL 0 (Node.leaf 0)) 1 (Node.leaf 1))
    2 (Node.leaf 2)) 3 (Node.leaf 3)

/-- C5 witness run: the half-filled depth-2 subtree's assignment. -/
def c5S2 : LeafF := assignList (natLeaves 20 2)

/-! ## Arithmetic and divergence-height lemmas -/

theorem div_pow_succ (a h : Nat) : a / 2 ^ (h + 1) = a / 2 ^ h / 2 := by
  rw [Nat.div_div_eq_div_mul, pow_succ]

theorem div_pow_succ' (a h : Nat) : a / 2 ^ (h + 1) = a / 2 / 2 ^ h := by
  rw [pow_succ', ← Nat.div_div_eq_div_mul]

theorem div_pow_mono_eq {s x a b : Nat} (hab : a ≤ b)
    (h : s / 2 ^ a = x / 2 ^ a) : s / 2 ^ b = x / 2 ^ b := by
  induction hab with
  | refl => exact h
  | step _ ih =>
    rename_i b' _
    rw [div_pow_succ, div_pow_succ, ih]

theorem dhAux_congr : ∀ {f : Nat} (g i j : Nat), i + j ≤ f → i + j ≤ g →
    dhAux f i j = dhAux g i j := by
  intro f
  induction f with
  | zero =>
    intro g i j hf hg
    have hi : i = 0 := by omega
    have hj : j = 0 := by omega
    subst hi; subst hj
    cases g with
    | zero => rfl
    | succ g => show (0 : Nat) = if (0 : Nat) = 0 then 0 else _; rw [if_pos rfl]
  | succ f ih =>
    intro g i j hf hg
    cases g with
    | zero =>
      have hi : i = 0 := by omega
      have hj : j = 0 := by omega
      subst hi; subst hj
      show (if (0 : Nat) = 0 then 0 else _) = (0 : Nat)
      rw [if_pos rfl]
    | succ g =>
      show (if i = j then 0 else if i / 2 = j / 2 then 0 else dhAux f (i / 2) (j / 2) + 1)
        = (if i = j then 0 else if i / 2 = j / 2 then 0 else dhAux g (i / 2) (j / 2) + 1)
      by_cases h1 : i = j
      · rw [if_pos h1, if_pos h1]
      · by_cases h2 : i / 2 = j / 2
        · rw [if_neg h1, if_neg h1, if_pos h2, if_pos h2]
        · rw [if_neg h1, if_neg h1, if_neg h2, if_neg h2]
          rw [ih g (i / 2) (j / 2) (by omega) (by omega)]

theorem dh_eq (i j : Nat) :
    dh i j = if i = j then 0 else if i / 2 = j / 2 then 0 else dh (i / 2) (j / 2) + 1 := by
  by_cases h1 : i = j
  · subst h1
    rw [if_pos rfl]
    have hall : ∀ f, dhAux f i i = 0 := by
      intro f
      cases f with
      | zero => rfl
      | succ f => show (if i = i then 0 else _) = 0; rw [if_pos rfl]
    exact hall (i + i)
  · by_cases h2 : i / 2 = j / 2
    · rw [if_neg h1, if_pos h2]
      have hall : ∀ f, i + j ≤ f → dhAux f i j = 0 := by
        intro f hf
        cases f with
        | zero => omega
        | succ f =>
          show (if i = j then 0 else if i / 2 = j / 2 then 0 else _) = 0
          rw [if_neg h1, if_pos h2]
      exact hall (i + j) (le_refl _)
    · rw [if_neg h1, if_neg h2]
      show dhAux (i + j) i j = _
      obtain ⟨f, hf⟩ : ∃ f, i + j = f + 1 := ⟨i + j - 1, by omega⟩
      rw [hf]
      show (if i = j then 0 else if i / 2 = j / 2 then 0 else dhAux f (i / 2) (j / 2) + 1) = _
      rw [if_neg h1, if_neg h2]
      show dhAux f (i / 2) (j / 2) + 1 = dhAux (i / 2 + j / 2) (i / 2) (j / 2) + 1
      rw [dhAux_congr (i / 2 + j / 2) (i / 2) (j / 2) (by omega) (le_refl _)]

theorem dh_spec (i j : Nat) (hne : i ≠ j) :
    i / 2 ^ dh i j ≠ j / 2 ^ dh i j ∧ i / 2 ^ (dh i j + 1) = j / 2 ^ (dh i j + 1) := by
  rw [dh_eq]
  by_cases h2 : i / 2 = j / 2
  · rw [if_neg hne, if_pos h2]
    refine ⟨by simpa using hne, ?_⟩
    simpa [pow_one] using h2
  · rw [if_neg hne, if_neg h2]
    have ih := dh_spec (i / 2) (j / 2) h2
    constructor
    · rw [div_pow_succ' i, div_pow_succ' j]
      exact ih.1
    · rw [div_pow_succ' i, div_pow_succ' j]
      exact ih.2
termination_by i + j
decreasing_by omega

theorem sib_ne (x : Nat) : sib x ≠ x := by unfold sib; split <;> omega

theorem sib_of {a b : Nat} (h1 : a ≠ b) (h2 : a / 2 = b / 2) : b = sib a := by
  unfold sib; split <;> omega

theorem sib_div (x : Nat) : sib x / 2 = x / 2 := by unfold sib; split <;> omega

theorem dh_char {i j t : Nat} (hne : i ≠ j) :
    j / 2 ^ t = sib (i / 2 ^ t) ↔ t = dh i j := by
  constructor
  · intro h
    have hne_t : i / 2 ^ t ≠ j / 2 ^ t := fun hc => sib_ne (i / 2 ^ t) (h ▸ hc.symm)
    have heq_t1 : i / 2 ^ (t + 1) = j / 2 ^ (t + 1) := by
      rw [div_pow_succ, div_pow_succ, h, sib_div]
    have hs := dh_spec i j hne
    by_contra hne_dh
    rcases Nat.lt_or_ge t (dh i j) with hlt | hge
    · exact hs.1 (div_pow_mono_eq (by omega) heq_t1)
    · exact hne_t (div_pow_mono_eq (by omega : dh i j + 1 ≤ t) hs.2)
  · rintro rfl
    have hs := dh_spec i j hne
    refine sib_of hs.1 ?_
    rw [← div_pow_succ, ← div_pow_succ]
    exact hs.2

theorem dh_lt {i j D : Nat} (hne : i ≠ j) (hi : i < 2 ^ D) (hj : j < 2 ^ D) : dh i j < D := by
  by_contra hge
  have hD : i / 2 ^ D = j / 2 ^ D := by rw [Nat.div_eq_of_lt hi, Nat.div_eq_of_lt hj]
  exact (dh_spec i j hne).1 (div_pow_mono_eq (by omega) hD)

theorem mod_pow_succ_split (j h : Nat) :
    j % 2 ^ (h + 1) = 2 * (j / 2 % 2 ^ h) + j % 2 := by
  have h1 : j % 2 ^ (h + 1) / 2 = j / 2 % 2 ^ h := by
    rw [pow_succ']
    exact Nat.mod_mul_right_div_self j 2 (2 ^ h)
  have h2 : j % 2 ^ (h + 1) % 2 = j % 2 := by
    exact Nat.mod_mod_of_dvd j ⟨2 ^ h, by rw [pow_succ']⟩
  omega

theorem slot_split (k j h : Nat) :
    k * 2 ^ (h + 1) + j % 2 ^ (h + 1) = 2 * (k * 2 ^ h + j / 2 % 2 ^ h) + j % 2 := by
  rw [mod_pow_succ_split, pow_succ]
  ring

theorem mod_shift_inj {a x y B : Nat} (hx : x < B) (hy : y < B)
    (h : (a + x) % B = (a + y) % B) : x = y := by
  have hme : x % B = y % B := Nat.ModEq.add_left_cancel' a h
  rwa [Nat.mod_eq_of_lt hx, Nat.mod_eq_of_lt hy] at hme

theorem div_bound {s t dep : Nat} (hs : s < 2 ^ dep) (ht : t ≤ dep) :
    s / 2 ^ t < 2 ^ (dep - t) := by
  rw [Nat.div_lt_iff_lt_mul (Nat.pos_pow_of_pos t (by omega)), ← pow_add]
  have : dep - t + t = dep := by omega
  rwa [this]

theorem subtree_mem_lt {x t dep kk : Nat} (ht : t ≤ dep) (hkk : kk < 2 ^ (dep - t))
    (hx : x / 2 ^ t = kk) : x < 2 ^ dep := by
  have h1 : x / 2 ^ t < 2 ^ (dep - t) := hx ▸ hkk
  rw [Nat.div_lt_iff_lt_mul (Nat.pos_pow_of_pos t (by omega)), ← pow_add] at h1
  have : dep - t + t = dep := by omega
  rwa [this] at h1

theorem sib_lt {y u : Nat} (hu : 1 ≤ u) (hy : y < 2 ^ u) : sib y < 2 ^ u := by
  obtain ⟨w, rfl⟩ : ∃ w, u = w + 1 := ⟨u - 1, by omega⟩
  rw [pow_succ'] at hy ⊢
  unfold sib
  split <;> omega

/-! ## Reference-tree lemmas -/

theorem subRoot_coarsen (L : LeafF) (h : Nat) :
    ∀ k, subRoot L (h + 1) k = subRoot (coarsen L) h k := by
  induction h with
  | zero => intro k; rfl
  | succ h ih =>
    intro k
    show Node.hash (subRoot L (h + 1) (2 * k)) (subRoot L (h + 1) (2 * k + 1)) = _
    rw [ih (2 * k), ih (2 * k + 1)]
    rfl

theorem subRoot_congr {L L' : LeafF} (h : Nat) :
    ∀ k, (∀ x, x / 2 ^ h = k → L x = L' x) → subRoot L h k = subRoot L' h k := by
  induction h with
  | zero => intro k hk; exact hk k (by simp)
  | succ h ih =>
    intro k hk
    show Node.hash _ _ = Node.hash _ _
    rw [ih (2 * k) (fun x hx => hk x (by rw [div_pow_succ, hx]; omega)),
      ih (2 * k + 1) (fun x hx => hk x (by rw [div_pow_succ, hx]; omega))]

theorem subRoot_emptyL (h : Nat) : ∀ k, subRoot emptyL h k = emptyRoot h := by
  induction h with
  | zero => intro k; rfl
  | succ h ih => intro k; show Node.hash _ _ = _; rw [ih, ih]; rfl

theorem subRoot_emptyOn {L : LeafF} {h k : Nat}
    (he : ∀ x, x / 2 ^ h = k → L x = Node.empty) : subRoot L h k = emptyRoot h := by
  rw [@subRoot_congr L emptyL h k (fun x hx => he x hx), subRoot_emptyL]

theorem subRoot_inj {L L' : LeafF} (h : Nat) :
    ∀ k k', subRoot L h k = subRoot L' h k' →
      ∀ x, x < 2 ^ h → L (k * 2 ^ h + x) = L' (k' * 2 ^ h + x) := by
  induction h with
  | zero =>
    intro k k' heq x hx
    have hx0 : x = 0 := by omega
    subst hx0
    simpa using heq
  | succ h ih =>
    intro k k' heq x hx
    have heq' : Node.hash (subRoot L h (2 * k)) (subRoot L h (2 * k + 1)) =
        Node.hash (subRoot L' h (2 * k')) (subRoot L' h (2 * k' + 1)) := heq
    injection heq' with h1 h2
    by_cases hx2 : x < 2 ^ h
    · have hres := ih (2 * k) (2 * k') h1 x hx2
      have e : ∀ z : Nat, z * 2 ^ (h + 1) + x = 2 * z * 2 ^ h + x := by
        intro z; rw [pow_succ]; ring
      rw [e k, e k']
      exact hres
    · obtain ⟨y, rfl⟩ : ∃ y, x = 2 ^ h + y := ⟨x - 2 ^ h, by omega⟩
      have hy : y < 2 ^ h := by
        rw [pow_succ] at hx; omega
      have hres := ih (2 * k + 1) (2 * k' + 1) h2 y hy
      have e : ∀ z : Nat, z * 2 ^ (h + 1) + (2 ^ h + y) = (2 * z + 1) * 2 ^ h + y := by
        intro z; rw [pow_succ]; ring
      rw [e k, e k']
      exact hres

theorem root_inj {L L' : LeafF} {D : Nat}
    (h : subRoot L D 0 = subRoot L' D 0) : ∀ x, x < 2 ^ D → L x = L' x := by
  intro x hx
  simpa using subRoot_inj D 0 0 h x hx

theorem sibList_length (L : LeafF) (s dep : Nat) : (sibList L s dep).length = dep := by
  simp [sibList]

theorem pathList_length (L : LeafF) (s dep : Nat) : (pathList L s dep).length = dep := by
  simp [pathList]

theorem sibList_getD (L : LeafF) (s dep t : Nat) (ht : t < dep) :
    (sibList L s dep).getD t default = subRoot L t (sib (s / 2 ^ t)) := by
  rw [List.getD_eq_getElem _ _ (by simpa [sibList] using ht)]
  simp [sibList]

theorem pathList_getD (L : LeafF) (s dep t : Nat) (ht : t < dep) :
    (pathList L s dep).getD t default = subRoot L t (s / 2 ^ t) := by
  rw [List.getD_eq_getElem _ _ (by simpa [pathList] using ht)]
  simp [pathList]

theorem list_ext_getD {l l' : List Node} (hlen : l.length = l'.length)
    (h : ∀ t, t < l.length → l.getD t default = l'.getD t default) : l = l' := by
  apply List.ext_getElem hlen
  intro t h1 h2
  have := h t h1
  rwa [List.getD_eq_getElem _ _ h1, List.getD_eq_getElem _ _ h2] at this

theorem sibList_congr {L L' : LeafF} {s dep : Nat}
    (hL : ∀ x, x < 2 ^ dep → L x = L' x) (hs : s < 2 ^ dep) :
    sibList L s dep = sibList L' s dep := by
  refine list_ext_getD (by simp [sibList_length]) ?_
  intro t ht
  rw [sibList_length] at ht
  rw [sibList_getD _ _ _ _ ht, sibList_getD _ _ _ _ ht]
  refine subRoot_congr t _ ?_
  intro x hx
  refine hL x ?_
  refine subtree_mem_lt (by omega) ?_ hx
  exact sib_lt (by omega) (div_bound hs (by omega))

theorem sibList_update_self (L : LeafF) (s dep : Nat) (v : Node) :
    sibList (updateL L s v) s dep = sibList L s dep := by
  refine list_ext_getD (by simp [sibList_length]) ?_
  intro t ht
  rw [sibList_length] at ht
  rw [sibList_getD _ _ _ _ ht, sibList_getD _ _ _ _ ht]
  refine subRoot_congr t _ ?_
  intro x hx
  have hxs : x ≠ s := by
    intro hc
    subst hc
    exact sib_ne (x / 2 ^ t) hx.symm
  simp [updateL, hxs]

theorem updateL_self (L : LeafF) (s : Nat) : updateL L s (L s) = L := by
  funext x
  unfold updateL
  split
  · rename_i hx; rw [hx]
  · rfl

theorem recompute_inj (h : Nat) :
    ∀ (L : LeafF) (node : Node) (pf : List Node) (j k : Nat),
      pf.length = h → recompute node pf j = subRoot L h k →
      node = L (k * 2 ^ h + j % 2 ^ h) ∧
      ∀ t, t < h → pf.getD t default =
        subRoot L t (sib ((k * 2 ^ h + j % 2 ^ h) / 2 ^ t)) := by
  induction h with
  | zero =>
    intro L node pf j k hlen heq
    have hpf : pf = [] := List.length_eq_zero.mp hlen
    subst hpf
    refine ⟨?_, by omega⟩
    simpa [recompute, Nat.mod_one] using heq
  | succ h ih =>
    intro L node pf j k hlen heq
    cases pf with
    | nil => simp at hlen
    | cons p rest =>
      simp only [recompute] at heq
      rw [subRoot_coarsen] at heq
      have ihr := ih (coarsen L) _ rest (j / 2) k (by simpa using hlen) heq
      have hsplit := slot_split k j h
      by_cases hpar : j % 2 = 0
      · have h1 : Node.hash node p =
            Node.hash (L (2 * (k * 2 ^ h + j / 2 % 2 ^ h)))
              (L (2 * (k * 2 ^ h + j / 2 % 2 ^ h) + 1)) := by
          have := ihr.1
          simpa [hashToParent, hpar, coarsen] using this
        injection h1 with hn hp
        have hs2 : k * 2 ^ (h + 1) + j % 2 ^ (h + 1) =
            2 * (k * 2 ^ h + j / 2 % 2 ^ h) := by omega
        constructor
        · rw [hs2]; exact hn
        · intro t ht
          match t with
          | 0 =>
            show p = _
            rw [pow_zero, Nat.div_one]
            have hsib : sib (k * 2 ^ (h + 1) + j % 2 ^ (h + 1)) =
                2 * (k * 2 ^ h + j / 2 % 2 ^ h) + 1 := by
              unfold sib; rw [hs2]; simp [Nat.mul_mod_right]
            rw [hsib]
            exact hp
          | t + 1 =>
            have hrt := ihr.2 t (by omega)
            have hdiv : (k * 2 ^ (h + 1) + j % 2 ^ (h + 1)) / 2 ^ (t + 1) =
                (k * 2 ^ h + j / 2 % 2 ^ h) / 2 ^ t := by
              rw [div_pow_succ']
              congr 1
              omega
            show rest.getD t default = _
            rw [hdiv, subRoot_coarsen]
            exact hrt
      · have hpar1 : j % 2 = 1 := by omega
        have h1 : Node.hash p node =
            Node.hash (L (2 * (k * 2 ^ h + j / 2 % 2 ^ h)))
              (L (2 * (k * 2 ^ h + j / 2 % 2 ^ h) + 1)) := by
          have := ihr.1
          simpa [hashToParent, hpar1, coarsen] using this
        injection h1 with hp hn
        have hs2 : k * 2 ^ (h + 1) + j % 2 ^ (h + 1) =
            2 * (k * 2 ^ h + j / 2 % 2 ^ h) + 1 := by omega
        constructor
        · rw [hs2]; exact hn
        · intro t ht
          match t with
          | 0 =>
            show p = _
            rw [pow_zero, Nat.div_one]
            have hsib : sib (k * 2 ^ (h + 1) + j % 2 ^ (h + 1)) =
                2 * (k * 2 ^ h + j / 2 % 2 ^ h) := by
              unfold sib
              rw [hs2]
              simp [Nat.mul_add_mod, Nat.mul_mod_right]
            rw [hsib]
            exact hp
          | t + 1 =>
            have hrt := ihr.2 t (by omega)
            have hdiv : (k * 2 ^ (h + 1) + j % 2 ^ (h + 1)) / 2 ^ (t + 1) =
                (k * 2 ^ h + j / 2 % 2 ^ h) / 2 ^ t := by
              rw [div_pow_succ']
              congr 1
              omega
            show rest.getD t default = _
            rw [hdiv, subRoot_coarsen]
            exact hrt

theorem coarsen_update (L : LeafF) (s : Nat) (v : Node) :
    coarsen (updateL L s v) =
      updateL (coarsen L) (s / 2) (hashToParent v (L (sib s)) (decide (s % 2 = 0))) := by
  funext x
  simp only [coarsen, updateL, hashToParent, sib]
  by_cases hx : x = s / 2
  · subst hx
    by_cases hp : s % 2 = 0
    · have h2 : 2 * (s / 2) = s := by omega
      have h3 : ¬(2 * (s / 2) + 1 = s) := by omega
      simp [hp, h2, h3]
    · have h2 : ¬(2 * (s / 2) = s) := by omega
      have h3 : 2 * (s / 2) + 1 = s := by omega
      have h4 : s - 1 = 2 * (s / 2) := by omega
      simp [hp, h2, h3, h4]
  · have h2 : ¬(2 * x = s) := by omega
    have h3 : ¬(2 * x + 1 = s) := by omega
    simp [hx, h2, h3]

theorem bubblePath_correct (h : Nat) :
    ∀ (L : LeafF) (v : Node) (j k s : Nat), s = k * 2 ^ h + j % 2 ^ h →
      bubblePath v (sibList L s h) j =
        (subRoot (updateL L s v) h k, pathList (updateL L s v) s h) := by
  induction h with
  | zero =>
    intro L v j k s hs
    have hs0 : s = k := by simpa [Nat.mod_one] using hs
    subst hs0
    simp [sibList, pathList, bubblePath, subRoot, updateL]
  | succ h ih =>
    intro L v j k s hs
    have hsib : sibList L s (h + 1) =
        subRoot L 0 (sib s) :: sibList (coarsen L) (s / 2) h := by
      unfold sibList
      rw [List.ofFn_succ]
      congr 1
      · simp
      · refine congrArg List.ofFn (funext fun t => ?_)
        show subRoot L (t.1 + 1) (sib (s / 2 ^ (t.1 + 1))) = _
        rw [div_pow_succ', subRoot_coarsen]
    rw [hsib]
    simp only [bubblePath]
    have hsplit := slot_split k j h
    have hs2 : s / 2 = k * 2 ^ h + (j / 2) % 2 ^ h := by omega
    have hpar : s % 2 = j % 2 := by omega
    have hdp : decide (j % 2 = 0) = decide (s % 2 = 0) := by rw [hpar]
    have ihr := ih (coarsen L) (hashToParent v (subRoot L 0 (sib s)) (decide (j % 2 = 0)))
      (j / 2) k (s / 2) hs2
    rw [ihr]
    have hcu : updateL (coarsen L) (s / 2)
        (hashToParent v (subRoot L 0 (sib s)) (decide (j % 2 = 0))) =
        coarsen (updateL L s v) := by
      rw [coarsen_update, hdp]
      rfl
    refine Prod.ext ?_ ?_
    · show subRoot (updateL (coarsen L) (s / 2)
          (hashToParent v (subRoot L 0 (sib s)) (decide (j % 2 = 0)))) h k =
        subRoot (updateL L s v) (h + 1) k
      rw [hcu, ← subRoot_coarsen]
    · show v :: pathList (updateL (coarsen L) (s / 2)
          (hashToParent v (subRoot L 0 (sib s)) (decide (j % 2 = 0)))) (s / 2) h =
        pathList (updateL L s v) s (h + 1)
      rw [hcu]
      unfold pathList
      rw [List.ofFn_succ]
      congr 1
      · simp [subRoot, updateL]
      · refine (congrArg List.ofFn (funext fun t => ?_)).symm
        show subRoot (updateL L s v) (t.1 + 1) ((s / 2 ^ (t.1 + 1))) = _
        rw [div_pow_succ', subRoot_coarsen]

theorem bubblePath_fst (v : Node) : ∀ (pf : List Node) (j : Nat),
    (bubblePath v pf j).1 = recompute v pf j := by
  intro pf
  induction pf generalizing v with
  | nil => intro j; rfl
  | cons p rest ih => intro j; simp only [bubblePath, recompute]; exact ih _ _

theorem recompute_sibList {L : LeafF} {D i : Nat} (hi : i < 2 ^ D) (v : Node) :
    recompute v (sibList L i D) i = subRoot (updateL L i v) D 0 := by
  have h := bubblePath_correct D L v i 0 i (by simp [Nat.mod_eq_of_lt hi])
  have := congrArg Prod.fst h
  rwa [bubblePath_fst] at this

theorem verify_inversion {L : LeafF} {D : Nat} {node : Node} {pf : List Node} {i : Nat}
    (hi : i < 2 ^ D) (hlen : pf.length = D)
    (heq : recompute node pf i = subRoot L D 0) :
    node = L i ∧ pf = sibList L i D := by
  have h := recompute_inj D L node pf i 0 hlen heq
  have hslot : 0 * 2 ^ D + i % 2 ^ D = i := by simp [Nat.mod_eq_of_lt hi]
  rw [hslot] at h
  refine ⟨h.1, ?_⟩
  refine list_ext_getD (by rw [hlen, sibList_length]) ?_
  intro t ht
  rw [hlen] at ht
  rw [h.2 t ht, sibList_getD _ _ _ _ ht]

theorem getD_set_self {α : Type} [Inhabited α] {l : List α} {t : Nat} {v : α}
    (ht : t < l.length) : (l.set t v).getD t default = v := by
  rw [List.getD_eq_getElem _ _ (by simpa using ht)]
  exact List.getElem_set_self _

theorem getD_set_ne {α : Type} [Inhabited α] {l : List α} {t u : Nat} {v : α}
    (hne : t ≠ u) : (l.set t v).getD u default = l.getD u default := by
  rcases Nat.lt_or_ge u l.length with hu | hu
  · rw [List.getD_eq_getElem _ _ (by simpa using hu), List.getD_eq_getElem _ _ hu]
    exact List.getElem_set_ne hne _
  · rw [List.getD_eq_getElem?_getD, List.getD_eq_getElem?_getD, List.getElem?_set]
    simp [hne]

theorem sibList_step {LO LN : LeafF} {i j dep : Nat}
    (hptw : ∀ x, x ≠ j → LN x = LO x) (hne : j ≠ i) (hdh : dh i j < dep) :
    (sibList LO i dep).set (dh i j) (subRoot LN (dh i j) (j / 2 ^ dh i j)) =
      sibList LN i dep := by
  have hneij : i ≠ j := fun hc => hne hc.symm
  refine list_ext_getD (by simp [sibList_length]) ?_
  intro t ht
  rw [List.length_set, sibList_length] at ht
  by_cases hteq : t = dh i j
  · subst hteq
    rw [getD_set_self (by rw [sibList_length]; exact hdh)]
    rw [sibList_getD _ _ _ _ ht]
    have hsib : j / 2 ^ dh i j = sib (i / 2 ^ dh i j) := (dh_char hneij).mpr rfl
    rw [hsib]
  · rw [getD_set_ne (fun hc => hteq hc.symm)]
    rw [sibList_getD _ _ _ _ ht, sibList_getD _ _ _ _ ht]
    refine (subRoot_congr t _ ?_).symm
    intro x hx
    refine hptw x ?_
    intro hc
    subst hc
    exact hteq ((dh_char hneij).mp hx)

/-! ## Ring lemmas -/

theorem ringAt_zero (m : MerkleRoll) (ha : m.activeIndex < m.maxBufferSize) :
    ringAt m 0 = getChangeLog m := by
  unfold ringAt getChangeLog
  congr 1
  rw [Nat.sub_zero, Nat.add_mod_right, Nat.mod_eq_of_lt ha]

theorem publish_maxDepth (m : MerkleRoll) (cl : ChangeLog) (rmp : RightmostProof) :
    (publish m cl rmp).maxDepth = m.maxDepth := rfl

theorem ringAt_publish_zero (m : MerkleRoll) (cl : ChangeLog) (rmp : RightmostProof)
    (ha : m.activeIndex < m.maxBufferSize) (hc : m.changeLogs.length = m.maxBufferSize) :
    ringAt (publish m cl rmp) 0 = cl := by
  unfold ringAt publish
  simp only []
  have hB : 0 < m.maxBufferSize := by omega
  have hlt : (m.activeIndex + 1) % m.maxBufferSize < m.maxBufferSize := Nat.mod_lt _ hB
  have hpos : ((m.activeIndex + 1) % m.maxBufferSize + m.maxBufferSize - 0) % m.maxBufferSize
      = (m.activeIndex + 1) % m.maxBufferSize := by
    rw [Nat.sub_zero, Nat.add_mod_right, Nat.mod_eq_of_lt hlt]
  rw [hpos]
  exact getD_set_self (by rw [hc]; exact hlt)

theorem ringAt_publish_succ (m : MerkleRoll) (cl : ChangeLog) (rmp : RightmostProof)
    (d : Nat) (ha : m.activeIndex < m.maxBufferSize) (hd : d + 1 < m.maxBufferSize)
    (hc : m.changeLogs.length = m.maxBufferSize) :
    ringAt (publish m cl rmp) (d + 1) = ringAt m d := by
  unfold ringAt publish
  simp only []
  have hB2 : 2 ≤ m.maxBufferSize := by omega
  have hpos : ((m.activeIndex + 1) % m.maxBufferSize + m.maxBufferSize - (d + 1))
      % m.maxBufferSize
      = (m.activeIndex + m.maxBufferSize - d) % m.maxBufferSize := by
    have e1 : (m.activeIndex + 1) % m.maxBufferSize + m.maxBufferSize - (d + 1)
        = (m.activeIndex + 1) % m.maxBufferSize + (m.maxBufferSize - (d + 1)) := by omega
    rw [e1, Nat.mod_add_mod]
    have e2 : m.activeIndex + 1 + (m.maxBufferSize - (d + 1))
        = m.activeIndex + (m.maxBufferSize - d) := by omega
    have e3 : m.activeIndex + m.maxBufferSize - d
        = m.activeIndex + (m.maxBufferSize - d) := by omega
    rw [e2, e3]
  rw [hpos]
  have hne : (m.activeIndex + 1) % m.maxBufferSize ≠
      (m.activeIndex + m.maxBufferSize - d) % m.maxBufferSize := by
    intro hcontra
    have e3 : m.activeIndex + m.maxBufferSize - d
        = m.activeIndex + (m.maxBufferSize - d) := by omega
    rw [e3] at hcontra
    rcases Nat.eq_zero_or_pos d with hd0 | hdpos
    · subst hd0
      rw [Nat.sub_zero, Nat.add_mod_right, Nat.mod_eq_of_lt ha] at hcontra
      have h01 : (m.activeIndex + 1) % m.maxBufferSize
          = (m.activeIndex + 0) % m.maxBufferSize := by
        rw [hcontra]
        rw [Nat.add_zero, Nat.mod_eq_of_lt ha]
      have := mod_shift_inj (by omega : 1 < m.maxBufferSize) (by omega : 0 < m.maxBufferSize) h01
      omega
    · have := mod_shift_inj (by omega : 1 < m.maxBufferSize)
        (by omega : m.maxBufferSize - d < m.maxBufferSize) hcontra
      omega
  exact getD_set_ne hne

/-! ## Root search and fast-forward lemmas -/

theorem findRootAux_some {m : MerkleRoll} {root : Node} :
    ∀ (r d d' : Nat), findRootAux m root d r = some d' →
      d ≤ d' ∧ d' < d + r ∧ (ringAt m d').root = root := by
  intro r
  induction r with
  | zero => intro d d' h; cases h
  | succ r ih =>
    intro d d' h
    have h' : (if (ringAt m d).root = root then some d
        else findRootAux m root (d + 1) r) = some d' := h
    by_cases hm : (ringAt m d).root = root
    · rw [if_pos hm] at h'
      cases h'
      exact ⟨le_refl _, by omega, hm⟩
    · rw [if_neg hm] at h'
      have hrec := ih (d + 1) d' h'
      exact ⟨by omega, by omega, hrec.2.2⟩

theorem findRootFrom_some {m : MerkleRoll} {root : Node} (d d' : Nat)
    (h : findRootFrom m root d = some d') :
    d ≤ d' ∧ d' < m.bufferSize ∧ (ringAt m d').root = root := by
  have hrec := findRootAux_some (m.bufferSize - d) d d' h
  exact ⟨hrec.1, by omega, hrec.2.2⟩

theorem findRootAux_none {m : MerkleRoll} {root : Node} :
    ∀ (r d : Nat), findRootAux m root d r = none →
      ∀ e, d ≤ e → e < d + r → (ringAt m e).root ≠ root := by
  intro r
  induction r with
  | zero => intro d h e h1 h2; omega
  | succ r ih =>
    intro d h e h1 h2
    have h' : (if (ringAt m d).root = root then some d
        else findRootAux m root (d + 1) r) = none := h
    by_cases hm : (ringAt m d).root = root
    · rw [if_pos hm] at h'; cases h'
    · rw [if_neg hm] at h'
      by_cases hed : e = d
      · subst hed; exact hm
      · exact ih (d + 1) h' e (by omega) (by omega)

theorem findRootFrom_none {m : MerkleRoll} {root : Node} (d : Nat)
    (h : findRootFrom m root d = none) :
    ∀ e, d ≤ e → e < m.bufferSize → (ringAt m e).root ≠ root := by
  intro e hde he
  exact findRootAux_none (m.bufferSize - d) d h e hde (by omega)

theorem findRootAux_le {m : MerkleRoll} {root : Node} {e : Nat}
    (hr : (ringAt m e).root = root) :
    ∀ (r d : Nat), d ≤ e → e < d + r →
      ∃ d', findRootAux m root d r = some d' ∧ d' ≤ e := by
  intro r
  induction r with
  | zero => intro d h1 h2; omega
  | succ r ih =>
    intro d h1 h2
    show ∃ d', (if (ringAt m d).root = root then some d
        else findRootAux m root (d + 1) r) = some d' ∧ d' ≤ e
    by_cases hm : (ringAt m d).root = root
    · exact ⟨d, by rw [if_pos hm], h1⟩
    · simp only [if_neg hm]
      have hde : d ≠ e := fun hc => hm (by rw [hc]; exact hr)
      exact ih (d + 1) (by omega) (by omega)

theorem findRootFrom_le {m : MerkleRoll} {root : Node} {e : Nat}
    (he : e < m.bufferSize) (hr : (ringAt m e).root = root) :
    ∃ d', findRootFrom m root 0 = some d' ∧ d' ≤ e :=
  findRootAux_le hr (m.bufferSize - 0) 0 (by omega) (by omega)

theorem fastForward_length (m : MerkleRoll) (i : Nat) :
    ∀ d (pf : List Node), (fastForward m i pf d).length = pf.length := by
  intro d
  induction d with
  | zero => intro pf; rfl
  | succ d ih =>
    intro pf
    show (fastForward m i (applyEntry (ringAt m d) i pf) d).length = _
    rw [ih]
    unfold applyEntry
    split
    · rfl
    · split
      · simp [List.length_set]
      · rfl

theorem ff_correct {m : MerkleRoll} {snaps : List Snap} (inv : Inv m snaps) {i : Nat}
    (hi : i < 2 ^ m.maxDepth) :
    ∀ d, d ≤ m.bufferSize → d < snaps.length →
      (∀ e, e < d → (snaps.getD e defaultSnap).idx ≠ i) →
      fastForward m i (sibList (snaps.getD d defaultSnap).L i m.maxDepth) d =
        sibList (snaps.getD 0 defaultSnap).L i m.maxDepth := by
  intro d
  induction d with
  | zero => intro _ _ _; rfl
  | succ d ih =>
    intro hdb hdl hunt
    show fastForward m i (applyEntry (ringAt m d) i _) d = _
    have hring := inv.ring d (by omega)
    have hidx : (snaps.getD d defaultSnap).idx ≠ i := hunt d (by omega)
    have hidxlt : (snaps.getD d defaultSnap).idx < 2 ^ m.maxDepth := inv.chainIdx d (by omega)
    have hdh : dh i (snaps.getD d defaultSnap).idx < m.maxDepth :=
      dh_lt (fun hc => hidx hc.symm) hi hidxlt
    have happ : applyEntry (ringAt m d) i
        (sibList (snaps.getD (d + 1) defaultSnap).L i m.maxDepth) =
        sibList (snaps.getD d defaultSnap).L i m.maxDepth := by
      rw [hring]
      unfold applyEntry entryOf
      simp only []
      rw [if_neg hidx, if_pos (by rw [sibList_length]; exact hdh)]
      rw [pathList_getD _ _ _ _ hdh]
      exact sibList_step (inv.chainL d hdl) hidx hdh
    rw [happ]
    exact ih (by omega) (by omega) (fun e he => hunt e (by omega))

theorem snap_leaf_stable {m : MerkleRoll} {snaps : List Snap} (inv : Inv m snaps) {i : Nat} :
    ∀ d, d < snaps.length → (∀ e, e < d → (snaps.getD e defaultSnap).idx ≠ i) →
      (snaps.getD d defaultSnap).L i = (snaps.getD 0 defaultSnap).L i := by
  intro d
  induction d with
  | zero => intro _ _; rfl
  | succ d ih =>
    intro hdl hunt
    have h1 := inv.chainL d hdl i (fun hc => hunt d (by omega) hc.symm)
    rw [← h1]
    exact ih (by omega) (fun e he => hunt e (by omega))

/-! ## Append machinery lemmas -/

theorem updateL_override (L : LeafF) (a : Nat) (w v : Node) :
    updateL (updateL L a w) a v = updateL L a v := by
  funext x
  unfold updateL
  split <;> rfl

theorem dh_symm (i j : Nat) (hne : i ≠ j) : dh i j = dh j i := by
  have h1 := dh_spec i j hne
  have h2 := dh_spec j i (fun hc => hne hc.symm)
  by_contra hc
  rcases Nat.lt_or_ge (dh i j) (dh j i) with hlt | hge
  · exact h2.1 (div_pow_mono_eq (by omega) h1.2).symm
  · exact h1.1 (div_pow_mono_eq (by omega : dh j i + 1 ≤ dh i j) h2.2).symm

theorem appendSibs_length : ∀ (pf : List Node) (i h : Nat),
    (appendSibs pf i h).length = pf.length := by
  intro pf
  induction pf with
  | nil => intro i h; rfl
  | cons p rest ih => intro i h; simp [appendSibs, ih]

theorem appendSibs_getD : ∀ (pf : List Node) (i h0 t : Nat), t < pf.length →
    (appendSibs pf i h0).getD t default =
      if (i / 2 ^ t) % 2 = 1 then pf.getD t default else emptyRoot (h0 + t) := by
  intro pf
  induction pf with
  | nil => intro i h0 t ht; simp at ht
  | cons p rest ih =>
    intro i h0 t ht
    match t with
    | 0 => simp [appendSibs]
    | t + 1 =>
      show (appendSibs rest (i / 2) (h0 + 1)).getD t default = _
      rw [ih (i / 2) (h0 + 1) t (by simpa using ht)]
      rw [div_pow_succ' i t]
      have he : h0 + 1 + t = h0 + (t + 1) := by omega
      rw [he]
      rfl

theorem recordProof_length : ∀ (pf path : List Node) (i : Nat),
    (recordProof pf path i).length = pf.length := by
  intro pf
  induction pf with
  | nil => intro path i; rfl
  | cons p rest ih =>
    intro path i
    cases path with
    | nil => rfl
    | cons q qrest => simp [recordProof, ih]

theorem recordProof_getD : ∀ (pf path : List Node) (i t : Nat), t < pf.length →
    pf.length ≤ path.length →
    (recordProof pf path i).getD t default =
      if (i / 2 ^ t) % 2 = 1 then pf.getD t default else path.getD t default := by
  intro pf
  induction pf with
  | nil => intro path i t ht _; simp at ht
  | cons p rest ih =>
    intro path i t ht hpl
    cases path with
    | nil => simp at hpl
    | cons q qrest =>
      match t with
      | 0 => simp [recordProof]
      | t + 1 =>
        show (recordProof rest qrest (i / 2)).getD t default = _
        rw [ih qrest (i / 2) t (by simpa using ht) (by simpa using hpl)]
        rw [div_pow_succ' i t]
        rfl

theorem append_sibs_eq_of {pf : List Node} {L2 : LeafF} {f D : Nat} (v : Node)
    (hplen : pf.length = D)
    (hP : ∀ h, h < D → (f / 2 ^ h) % 2 = 1 →
      pf.getD h default = subRoot L2 h (f / 2 ^ h - 1))
    (hem : ∀ j, f ≤ j → L2 j = Node.empty) :
    appendSibs pf f 0 = sibList (updateL L2 f v) f D := by
  refine list_ext_getD ?_ ?_
  · rw [appendSibs_length, hplen, sibList_length]
  · intro t ht
    rw [appendSibs_length, hplen] at ht
    rw [appendSibs_getD _ _ _ _ (by rw [hplen]; exact ht)]
    rw [sibList_getD _ _ _ _ ht]
    by_cases hbit : (f / 2 ^ t) % 2 = 1
    · rw [if_pos hbit, hP t ht hbit]
      have hsib : sib (f / 2 ^ t) = f / 2 ^ t - 1 := by
        unfold sib; split <;> omega
      rw [hsib]
      refine subRoot_congr t _ ?_
      intro x hx
      have hxi : x ≠ f := by
        intro hc
        subst hc
        omega
      simp [updateL, hxi]
    · rw [if_neg hbit]
      simp only [Nat.zero_add]
      have hsib : sib (f / 2 ^ t) = f / 2 ^ t + 1 := by
        unfold sib; split <;> omega
      rw [hsib]
      refine (subRoot_emptyOn ?_).symm
      intro x hx
      have hxi : f < x := by
        by_contra hle
        have hmono : x / 2 ^ t ≤ f / 2 ^ t :=
          Nat.div_le_div_right (by omega)
        omega
      have hxne : x ≠ f := by omega
      unfold updateL
      rw [if_neg hxne]
      exact hem x (by omega)

theorem append_sibs_eq {m : MerkleRoll} {snaps : List Snap} (inv : Inv m snaps) (v : Node) :
    appendSibs m.rightmostProof.proof m.rightmostProof.index 0 =
      sibList (updateL (snaps.getD 0 defaultSnap).L m.rightmostProof.index v)
        m.rightmostProof.index m.maxDepth :=
  append_sibs_eq_of v inv.plen inv.rmpP inv.empt

theorem appendOk_eq {m : MerkleRoll} {snaps : List Snap} (inv : Inv m snaps) (v : Node)
    (hlt : m.rightmostProof.index < 2 ^ m.maxDepth) :
    appendOk m v = publish m
      (entryOf m.maxDepth
        { L := updateL (snaps.getD 0 defaultSnap).L m.rightmostProof.index v,
          idx := m.rightmostProof.index })
      { proof := recordProof m.rightmostProof.proof
          (pathList (updateL (snaps.getD 0 defaultSnap).L m.rightmostProof.index v)
            m.rightmostProof.index m.maxDepth) m.rightmostProof.index,
        index := m.rightmostProof.index + 1, leaf := v } := by
  simp only [appendOk]
  rw [append_sibs_eq inv v]
  rw [bubblePath_correct m.maxDepth _ v m.rightmostProof.index 0 m.rightmostProof.index
    (by simp [Nat.mod_eq_of_lt hlt])]
  rw [updateL_override]
  rfl

/-! ## Invariant establishment and preservation -/

theorem inv_publish {m : MerkleRoll} {snaps : List Snap} (inv : Inv m snaps)
    {LN : LeafF} {iN : Nat} {rmp : RightmostProof}
    (hiN : iN < 2 ^ m.maxDepth)
    (hLN : ∀ x, x ≠ iN → LN x = (snaps.getD 0 defaultSnap).L x)
    (hplen : rmp.proof.length = m.maxDepth)
    (hple : rmp.index ≤ 2 ^ m.maxDepth)
    (hempt : ∀ j, rmp.index ≤ j → LN j = Node.empty)
    (hrmpP : ∀ h, h < m.maxDepth → (rmp.index / 2 ^ h) % 2 = 1 →
        rmp.proof.getD h default = subRoot LN h (rmp.index / 2 ^ h - 1))
    (hrmpL : rmp.leaf = (if rmp.index = 0 then Node.empty else LN (rmp.index - 1))) :
    Inv (publish m (entryOf m.maxDepth { L := LN, idx := iN }) rmp)
      ({ L := LN, idx := iN } :: snaps) := by
  have ha : m.activeIndex < m.maxBufferSize := by
    rw [inv.act]
    exact Nat.mod_lt _ (by have := inv.bpos; omega)
  refine ⟨?_, ?_, ?_, ?_, ?_, ?_, ?_, ?_, ?_, ?_, ?_, ?_, ?_⟩
  · exact inv.bpos
  · show snaps.length + 1 = m.sequenceNumber + 1 + 1
    rw [inv.slen]
  · show min (m.bufferSize + 1) m.maxBufferSize = min (m.sequenceNumber + 1 + 1) m.maxBufferSize
    rw [inv.bsize]
    omega
  · show (m.activeIndex + 1) % m.maxBufferSize = (m.sequenceNumber + 1) % m.maxBufferSize
    rw [inv.act, Nat.mod_add_mod]
  · show (m.changeLogs.set _ _).length = m.maxBufferSize
    rw [List.length_set, inv.clen]
  · intro d hd
    match d with
    | 0 =>
      rw [ringAt_publish_zero m _ _ ha inv.clen]
      rfl
    | d + 1 =>
      have hd' : d + 1 < min (m.bufferSize + 1) m.maxBufferSize := hd
      have hdB : d + 1 < m.maxBufferSize := by omega
      rw [ringAt_publish_succ m _ _ d ha hdB inv.clen]
      rw [inv.ring d (by omega)]
      rfl
  · intro d hd
    match d with
    | 0 => exact hiN
    | d + 1 =>
      have hlen2 : d + 1 < snaps.length := by
        have hd' : d + 1 + 1 < snaps.length + 1 := hd
        omega
      exact inv.chainIdx d hlen2
  · intro d hd x hx
    match d with
    | 0 => exact hLN x hx
    | d + 1 =>
      have hlen2 : d + 1 < snaps.length := by
        have hd' : d + 1 + 1 < snaps.length + 1 := hd
        omega
      exact inv.chainL d hlen2 x hx
  · exact hplen
  · exact hple
  · exact hempt
  · exact hrmpP
  · exact hrmpL

theorem inv_init (D B : Nat) (hB : 1 ≤ B) :
    Inv (initMut (newRoll D B)) [defaultSnap] := by
  refine ⟨?_, ?_, ?_, ?_, ?_, ?_, ?_, ?_, ?_, ?_, ?_, ?_, ?_⟩
  · exact hB
  · rfl
  · show 1 = min (0 + 1) B
    omega
  · show 0 = 0 % B
    rw [Nat.zero_mod]
  · show ((List.replicate B default).set 0 (initEntry D)).length = B
    rw [List.length_set, List.length_replicate]
  · intro d hd
    have hd1 : d < 1 := hd
    have hd0 : d = 0 := by omega
    subst hd0
    show ((List.replicate B (default : ChangeLog)).set 0 (initEntry D)).getD
      ((0 + B - 0) % B) default = entryOf D defaultSnap
    have hpos : (0 + B - 0) % B = 0 := by
      rw [Nat.zero_add, Nat.sub_zero, Nat.mod_self]
    rw [hpos, getD_set_self (by rw [List.length_replicate]; omega)]
    show initEntry D = entryOf D defaultSnap
    unfold initEntry entryOf defaultSnap pathList
    refine congrArg₂ (fun a b => ChangeLog.mk a b 0) ?_ ?_
    · rw [subRoot_emptyL]
    · refine congrArg List.ofFn (funext fun t => ?_)
      rw [Nat.zero_div, subRoot_emptyL]
  · intro d hd
    have : d + 1 < 1 := hd
    omega
  · intro d hd
    have : d + 1 < 1 := hd
    omega
  · show (List.ofFn fun h : Fin D => emptyRoot h.1).length = D
    rw [List.length_ofFn]
  · exact Nat.zero_le _
  · intro j _
    rfl
  · intro h _ hbit
    have hbit' : (0 : Nat) / 2 ^ h % 2 = 1 := hbit
    rw [Nat.zero_div, Nat.zero_mod] at hbit'
    omega
  · rfl

theorem inv_append {m : MerkleRoll} {snaps : List Snap} (inv : Inv m snaps) (v : Node)
    (hlt : m.rightmostProof.index < 2 ^ m.maxDepth) :
    Inv (appendOk m v)
      ({ L := updateL (snaps.getD 0 defaultSnap).L m.rightmostProof.index v,
         idx := m.rightmostProof.index } :: snaps) := by
  rw [appendOk_eq inv v hlt]
  refine inv_publish inv hlt ?_ ?_ ?_ ?_ ?_ ?_
  · intro x hx
    simp [updateL, hx]
  · show (recordProof _ _ _).length = m.maxDepth
    rw [recordProof_length, inv.plen]
  · show m.rightmostProof.index + 1 ≤ 2 ^ m.maxDepth
    omega
  · intro j hj
    have hjs : m.rightmostProof.index + 1 ≤ j := hj
    have hne : j ≠ m.rightmostProof.index := by omega
    show updateL _ _ v j = Node.empty
    unfold updateL
    rw [if_neg hne]
    exact inv.empt j (by omega)
  · intro h hh hbit
    have hbit' : ((m.rightmostProof.index + 1) / 2 ^ h) % 2 = 1 := hbit
    have hpfl : h < m.rightmostProof.proof.length := by rw [inv.plen]; exact hh
    show (recordProof _ _ _).getD h default = _
    rw [recordProof_getD _ _ _ _ hpfl (by rw [inv.plen, pathList_length])]
    have hp2 : 0 < 2 ^ h := Nat.pos_pow_of_pos h (by omega)
    have hd1 : m.rightmostProof.index / 2 ^ h ≤ (m.rightmostProof.index + 1) / 2 ^ h :=
      Nat.div_le_div_right (by omega)
    have hd2 : (m.rightmostProof.index + 1) / 2 ^ h ≤ m.rightmostProof.index / 2 ^ h + 1 := by
      have hstep := Nat.add_div_right m.rightmostProof.index hp2
      have hmono : (m.rightmostProof.index + 1) / 2 ^ h ≤
          (m.rightmostProof.index + 2 ^ h) / 2 ^ h := Nat.div_le_div_right (by omega)
      omega
    by_cases hcase : (m.rightmostProof.index + 1) / 2 ^ h = m.rightmostProof.index / 2 ^ h
    · have hbi : (m.rightmostProof.index / 2 ^ h) % 2 = 1 := by
        rw [← hcase]
        exact hbit'
      rw [if_pos hbi, inv.rmpP h hh hbi, hcase]
      refine subRoot_congr h _ ?_
      intro x hx
      have hxne : x ≠ m.rightmostProof.index := by
        intro hc
        subst hc
        revert hx hbi
        generalize m.rightmostProof.index / 2 ^ h = a
        intro hx hbi
        omega
      simp [updateL, hxne]
    · have hcase2 : (m.rightmostProof.index + 1) / 2 ^ h =
          m.rightmostProof.index / 2 ^ h + 1 := by omega
      have hbi : ¬((m.rightmostProof.index / 2 ^ h) % 2 = 1) := by
        rw [hcase2] at hbit'
        omega
      rw [if_neg hbi, pathList_getD _ _ _ _ hh, hcase2, Nat.add_sub_cancel]
  · show v = if m.rightmostProof.index + 1 = 0 then Node.empty
      else updateL _ _ v (m.rightmostProof.index + 1 - 1)
    rw [if_neg (by omega)]
    simp [updateL]

theorem sib_odd {x : Nat} (hx : x % 2 = 1) : sib x = x - 1 := by
  unfold sib
  rw [if_neg (by omega)]

theorem sib_even {x : Nat} (hx : x % 2 = 0) : sib x = x + 1 := by
  unfold sib
  rw [if_pos hx]

theorem set_leaf_inv {m : MerkleRoll} {root prev v : Node} {pf : List Node} {i : Nat}
    {m' : MerkleRoll} (hs : m.set_leaf root prev v pf i = Except.ok m') :
    i < 2 ^ m.maxDepth ∧ pf.length = m.maxDepth ∧ i ≤ m.rightmostProof.index ∧
      ∃ d, findRootFrom m root 0 = some d ∧
        recompute prev (fastForward m i pf d) i = (getChangeLog m).root ∧
        ((i < m.rightmostProof.index ∧ m' = setLeafOk m v (fastForward m i pf d) i) ∨
         (i = m.rightmostProof.index ∧
           m' = setLeafFrontierOk m v (fastForward m i pf d) i)) := by
  simp only [MerkleRoll.set_leaf] at hs
  split at hs
  · simp at hs
  split at hs
  · simp at hs
  split at hs
  · simp at hs
  rename_i h1 h2 h3
  split at hs
  · simp at hs
  rename_i d hfind
  split at hs
  · rename_i hver
    split at hs
    · rename_i hfr
      exact ⟨by omega, by omega, by omega, d, hfind, hver,
        Or.inr ⟨hfr, (Except.ok.inj hs).symm⟩⟩
    · rename_i hfr
      exact ⟨by omega, by omega, by omega, d, hfind, hver,
        Or.inl ⟨by omega, (Except.ok.inj hs).symm⟩⟩
  · simp at hs

theorem setLeafOk_eq (m : MerkleRoll) (v : Node) (L0 : LeafF) {i : Nat}
    (hi : i < 2 ^ m.maxDepth) :
    setLeafOk m v (sibList L0 i m.maxDepth) i =
      publish m (entryOf m.maxDepth { L := updateL L0 i v, idx := i })
        { proof :=
            if dh i m.rightmostProof.index < m.maxDepth then
              m.rightmostProof.proof.set (dh i m.rightmostProof.index)
                ((pathList (updateL L0 i v) i m.maxDepth).getD
                  (dh i m.rightmostProof.index) default)
            else m.rightmostProof.proof,
          index := m.rightmostProof.index,
          leaf := if i + 1 = m.rightmostProof.index then v else m.rightmostProof.leaf } := by
  simp only [setLeafOk]
  rw [bubblePath_correct m.maxDepth _ v i 0 i (by simp [Nat.mod_eq_of_lt hi])]
  rfl

theorem setLeafFrontierOk_eq (m : MerkleRoll) (v : Node) (L0 : LeafF) {i : Nat}
    (hi : i < 2 ^ m.maxDepth) :
    setLeafFrontierOk m v (sibList L0 i m.maxDepth) i =
      publish m (entryOf m.maxDepth { L := updateL L0 i v, idx := i })
        { proof := recordProof (sibList L0 i m.maxDepth)
            (pathList (updateL L0 i v) i m.maxDepth) i,
          index := i + 1, leaf := v } := by
  simp only [setLeafFrontierOk]
  rw [bubblePath_correct m.maxDepth _ v i 0 i (by simp [Nat.mod_eq_of_lt hi])]
  rfl

theorem inv_set_frontier {m : MerkleRoll} {snaps : List Snap} (inv : Inv m snaps) (v : Node)
    (hlt : m.rightmostProof.index < 2 ^ m.maxDepth) :
    Inv (setLeafFrontierOk m v
        (sibList (snaps.getD 0 defaultSnap).L m.rightmostProof.index m.maxDepth)
        m.rightmostProof.index)
      ({ L := updateL (snaps.getD 0 defaultSnap).L m.rightmostProof.index v,
         idx := m.rightmostProof.index } :: snaps) := by
  rw [setLeafFrontierOk_eq m v _ hlt]
  refine inv_publish inv hlt ?_ ?_ ?_ ?_ ?_ ?_
  · intro x hx
    simp [updateL, hx]
  · show (recordProof _ _ _).length = m.maxDepth
    rw [recordProof_length, sibList_length]
  · show m.rightmostProof.index + 1 ≤ 2 ^ m.maxDepth
    omega
  · intro j hj
    have hjs : m.rightmostProof.index + 1 ≤ j := hj
    have hne : j ≠ m.rightmostProof.index := by omega
    show updateL _ _ v j = Node.empty
    unfold updateL
    rw [if_neg hne]
    exact inv.empt j (by omega)
  · intro h hh hbit
    have hbit' : ((m.rightmostProof.index + 1) / 2 ^ h) % 2 = 1 := hbit
    have hpfl : h < (sibList (snaps.getD 0 defaultSnap).L
        m.rightmostProof.index m.maxDepth).length := by
      rw [sibList_length]
      exact hh
    show (recordProof _ _ _).getD h default = _
    rw [recordProof_getD _ _ _ _ hpfl (by rw [sibList_length, pathList_length])]
    have hp2 : 0 < 2 ^ h := Nat.pos_pow_of_pos h (by omega)
    have hd1 : m.rightmostProof.index / 2 ^ h ≤ (m.rightmostProof.index + 1) / 2 ^ h :=
      Nat.div_le_div_right (by omega)
    have hd2 : (m.rightmostProof.index + 1) / 2 ^ h ≤ m.rightmostProof.index / 2 ^ h + 1 := by
      have hstep := Nat.add_div_right m.rightmostProof.index hp2
      have hmono : (m.rightmostProof.index + 1) / 2 ^ h ≤
          (m.rightmostProof.index + 2 ^ h) / 2 ^ h := Nat.div_le_div_right (by omega)
      omega
    by_cases hcase : (m.rightmostProof.index + 1) / 2 ^ h = m.rightmostProof.index / 2 ^ h
    · have hbi : (m.rightmostProof.index / 2 ^ h) % 2 = 1 := by
        rw [← hcase]
        exact hbit'
      rw [if_pos hbi]
      rw [sibList_getD _ _ _ _ hh, sib_odd hbi, hcase]
      refine subRoot_congr h _ ?_
      intro x hx
      have hxne : x ≠ m.rightmostProof.index := by
        intro hc
        subst hc
        revert hx hbi
        generalize m.rightmostProof.index / 2 ^ h = a
        intro hx hbi
        omega
      simp [updateL, hxne]
    · have hcase2 : (m.rightmostProof.index + 1) / 2 ^ h =
          m.rightmostProof.index / 2 ^ h + 1 := by omega
      have hbi : ¬((m.rightmostProof.index / 2 ^ h) % 2 = 1) := by
        rw [hcase2] at hbit'
        omega
      rw [if_neg hbi, pathList_getD _ _ _ _ hh, hcase2, Nat.add_sub_cancel]
  · show v = if m.rightmostProof.index + 1 = 0 then Node.empty
      else updateL _ _ v (m.rightmostProof.index + 1 - 1)
    rw [if_neg (by omega)]
    simp [updateL]

theorem inv_set {m : MerkleRoll} {snaps : List Snap} (inv : Inv m snaps)
    {root prev v : Node} {pf : List Node} {i : Nat} {m' : MerkleRoll}
    (hs : m.set_leaf root prev v pf i = Except.ok m') :
    Inv m' ({ L := updateL (snaps.getD 0 defaultSnap).L i v, idx := i } :: snaps) := by
  obtain ⟨hi, hlen, hidx, d, hfind, hver, hbr⟩ := set_leaf_inv hs
  have ha : m.activeIndex < m.maxBufferSize := by
    rw [inv.act]
    exact Nat.mod_lt _ (by have := inv.bpos; omega)
  have hbuf1 : 1 ≤ m.bufferSize := by
    rw [inv.bsize]
    have := inv.bpos
    omega
  have hcur : (getChangeLog m).root = subRoot (snaps.getD 0 defaultSnap).L m.maxDepth 0 := by
    rw [← ringAt_zero m ha, inv.ring 0 (by omega)]
    rfl
  have hffl : (fastForward m i pf d).length = m.maxDepth := by
    rw [fastForward_length]
    exact hlen
  rw [hcur] at hver
  have hinv2 := verify_inversion hi hffl hver
  rcases hbr with ⟨hlt, hm'⟩ | ⟨heq, hm'⟩
  rotate_left
  · subst hm'
    subst heq
    rw [hinv2.2]
    exact inv_set_frontier inv v hi
  have hnei : i ≠ m.rightmostProof.index := by omega
  subst hm'
  rw [hinv2.2, setLeafOk_eq m v _ hi]
  refine inv_publish inv hi ?_ ?_ ?_ ?_ ?_ ?_
  · intro x hx
    show updateL (snaps.getD 0 defaultSnap).L i v x = (snaps.getD 0 defaultSnap).L x
    unfold updateL
    rw [if_neg hx]
  · show (if dh i m.rightmostProof.index < m.maxDepth then _ else _ : List Node).length
      = m.maxDepth
    by_cases hst : dh i m.rightmostProof.index < m.maxDepth
    · rw [if_pos hst, List.length_set, inv.plen]
    · rw [if_neg hst, inv.plen]
  · exact inv.ple
  · intro j hj
    have hj' : m.rightmostProof.index ≤ j := hj
    have hne : j ≠ i := by omega
    show updateL _ _ v j = Node.empty
    unfold updateL
    rw [if_neg hne]
    exact inv.empt j hj'
  · intro h hh hbit
    have hbit2 : (m.rightmostProof.index / 2 ^ h) % 2 = 1 := hbit
    show (if dh i m.rightmostProof.index < m.maxDepth then
        m.rightmostProof.proof.set (dh i m.rightmostProof.index)
          ((pathList (updateL (snaps.getD 0 defaultSnap).L i v) i m.maxDepth).getD
            (dh i m.rightmostProof.index) default)
      else m.rightmostProof.proof).getD h default =
      subRoot (updateL (snaps.getD 0 defaultSnap).L i v) h
        (m.rightmostProof.index / 2 ^ h - 1)
    by_cases hst : dh i m.rightmostProof.index < m.maxDepth
    · rw [if_pos hst]
      by_cases hth : h = dh i m.rightmostProof.index
      · subst hth
        rw [getD_set_self (by rw [inv.plen]; exact hst)]
        rw [pathList_getD _ _ _ _ hst]
        have hsymm : dh i m.rightmostProof.index = dh m.rightmostProof.index i :=
          dh_symm i _ hnei
        have hsibx : i / 2 ^ dh i m.rightmostProof.index =
            sib (m.rightmostProof.index / 2 ^ dh i m.rightmostProof.index) :=
          (dh_char (i := m.rightmostProof.index) (j := i)
            (fun hc => hnei hc.symm)).mpr hsymm
        rw [hsibx, sib_odd hbit2]
      · rw [getD_set_ne (fun hc => hth hc.symm)]
        rw [inv.rmpP h hh hbit2]
        refine subRoot_congr h _ ?_
        intro x hx
        have hxne : x ≠ i := by
          intro hc
          subst hc
          rw [← sib_odd hbit2] at hx
          have hchar := (dh_char (i := m.rightmostProof.index) (j := x)
            (fun hc => hnei hc.symm)).mp hx
          rw [← dh_symm x _ hnei] at hchar
          exact hth hchar
        unfold updateL
        rw [if_neg hxne]
    · rw [if_neg hst]
      rw [inv.rmpP h hh hbit2]
      refine subRoot_congr h _ ?_
      intro x hx
      have hxne : x ≠ i := by
        intro hc
        subst hc
        rw [← sib_odd hbit2] at hx
        have hchar := (dh_char (i := m.rightmostProof.index) (j := x)
          (fun hc => hnei hc.symm)).mp hx
        rw [← dh_symm x _ hnei] at hchar
        omega
      unfold updateL
      rw [if_neg hxne]
  · show (if i + 1 = m.rightmostProof.index then v else m.rightmostProof.leaf) =
      if m.rightmostProof.index = 0 then Node.empty
      else updateL (snaps.getD 0 defaultSnap).L i v (m.rightmostProof.index - 1)
    rw [if_neg (by omega : ¬(m.rightmostProof.index = 0))]
    by_cases hsucc : i + 1 = m.rightmostProof.index
    · rw [if_pos hsucc]
      have he : m.rightmostProof.index - 1 = i := by omega
      rw [he]
      show v = updateL _ i v i
      unfold updateL
      rw [if_pos rfl]
    · rw [if_neg hsucc, inv.rmpL, if_neg (by omega : ¬(m.rightmostProof.index = 0))]
      have hne : m.rightmostProof.index - 1 ≠ i := by omega
      unfold updateL
      rw [if_neg hne]

theorem reach_inv {m : MerkleRoll} {L : LeafF} (h : Reach m L) :
    ∃ snaps, Inv m snaps ∧ (snaps.getD 0 defaultSnap).L = L := by
  induction h with
  | init D B hB => exact ⟨[defaultSnap], inv_init D B hB, rfl⟩
  | app v h hlt ih =>
    obtain ⟨snaps, inv, hL⟩ := ih
    refine ⟨_, inv_append inv v hlt, ?_⟩
    show updateL (snaps.getD 0 defaultSnap).L _ v = _
    rw [hL]
  | set h hs ih =>
    obtain ⟨snaps, inv, hL⟩ := ih
    refine ⟨_, inv_set inv hs, ?_⟩
    show updateL (snaps.getD 0 defaultSnap).L _ _ = _
    rw [hL]

theorem newRoll_init_ok (D B : Nat) :
    MerkleRoll.initialize (newRoll D B) = Except.ok (initMut (newRoll D B)) := rfl

theorem append_ok_of_lt {m : MerkleRoll} (v : Node)
    (hlt : m.rightmostProof.index < 2 ^ m.maxDepth) :
    m.append v = Except.ok (appendOk m v) := by
  unfold MerkleRoll.append
  rw [if_neg (by omega)]

theorem append_full {m : MerkleRoll} (v : Node)
    (hfull : m.rightmostProof.index = 2 ^ m.maxDepth) :
    m.append v = Except.error CMTError.TreeFull := by
  unfold MerkleRoll.append
  rw [if_pos hfull]

theorem appendOk_index (m : MerkleRoll) (v : Node) :
    (appendOk m v).rightmostProof.index = m.rightmostProof.index + 1 := rfl

theorem appendOk_maxDepth (m : MerkleRoll) (v : Node) :
    (appendOk m v).maxDepth = m.maxDepth := rfl

theorem reach_current_root {m : MerkleRoll} {L : LeafF} (h : Reach m L) :
    (getChangeLog m).root = subRoot L m.maxDepth 0 := by
  obtain ⟨snaps, inv, hL⟩ := reach_inv h
  have ha : m.activeIndex < m.maxBufferSize := by
    rw [inv.act]
    exact Nat.mod_lt _ (by have := inv.bpos; omega)
  have hbuf1 : 1 ≤ m.bufferSize := by
    rw [inv.bsize]
    have := inv.bpos
    omega
  rw [← ringAt_zero m ha, inv.ring 0 (by omega)]
  show subRoot (snaps.getD 0 defaultSnap).L _ 0 = _
  rw [hL]

theorem getChangeLog_publish (m : MerkleRoll) (cl : ChangeLog) (rmp : RightmostProof)
    (ha : m.activeIndex < m.maxBufferSize) (hc : m.changeLogs.length = m.maxBufferSize) :
    getChangeLog (publish m cl rmp) = cl := by
  have hB : 0 < m.maxBufferSize := by omega
  have ha' : (publish m cl rmp).activeIndex < (publish m cl rmp).maxBufferSize :=
    Nat.mod_lt _ hB
  rw [← ringAt_zero _ ha']
  exact ringAt_publish_zero m cl rmp ha hc

theorem inv_active_lt {m : MerkleRoll} {snaps : List Snap} (inv : Inv m snaps) :
    m.activeIndex < m.maxBufferSize := by
  rw [inv.act]
  exact Nat.mod_lt _ (by have := inv.bpos; omega)

theorem inv_buffer_pos {m : MerkleRoll} {snaps : List Snap} (inv : Inv m snaps) :
    1 ≤ m.bufferSize := by
  rw [inv.bsize]
  have := inv.bpos
  omega

theorem inv_current_root {m : MerkleRoll} {snaps : List Snap} (inv : Inv m snaps) :
    (getChangeLog m).root = subRoot (snaps.getD 0 defaultSnap).L m.maxDepth 0 := by
  rw [← ringAt_zero m (inv_active_lt inv), inv.ring 0 (by have := inv_buffer_pos inv; omega)]
  rfl

theorem findRoot_current {m : MerkleRoll} {snaps : List Snap} (inv : Inv m snaps) :
    findRootFrom m ((getChangeLog m).root) 0 = some 0 := by
  have hb : 1 ≤ m.bufferSize := inv_buffer_pos inv
  show findRootAux m _ 0 (m.bufferSize - 0) = some 0
  obtain ⟨r, hr⟩ : ∃ r, m.bufferSize - 0 = r + 1 := ⟨m.bufferSize - 1, by omega⟩
  rw [hr]
  show (if (ringAt m 0).root = (getChangeLog m).root then some 0 else _) = some 0
  rw [if_pos (by rw [ringAt_zero m (inv_active_lt inv)])]

theorem recompute_self_root {m : MerkleRoll} {snaps : List Snap} (inv : Inv m snaps)
    {i : Nat} (hi : i < 2 ^ m.maxDepth) :
    recompute ((snaps.getD 0 defaultSnap).L i)
      (sibList (snaps.getD 0 defaultSnap).L i m.maxDepth) i = (getChangeLog m).root := by
  rw [recompute_sibList hi, updateL_self, inv_current_root inv]

theorem set_leaf_current_ok {m : MerkleRoll} {snaps : List Snap} (inv : Inv m snaps)
    {i : Nat} (hidx : i < m.rightmostProof.index) (v : Node) :
    m.set_leaf ((getChangeLog m).root) ((snaps.getD 0 defaultSnap).L i) v
      (sibList (snaps.getD 0 defaultSnap).L i m.maxDepth) i =
      Except.ok (setLeafOk m v (sibList (snaps.getD 0 defaultSnap).L i m.maxDepth) i) := by
  have hi : i < 2 ^ m.maxDepth := by
    have := inv.ple
    omega
  unfold MerkleRoll.set_leaf
  rw [if_neg (by omega : ¬(2 ^ m.maxDepth ≤ i))]
  rw [if_neg (by rw [sibList_length]; simp)]
  rw [if_neg (by omega : ¬(m.rightmostProof.index < i))]
  rw [findRoot_current inv]
  show (if recompute _ (sibList (snaps.getD 0 defaultSnap).L i m.maxDepth) i
      = (getChangeLog m).root then _ else _) = _
  rw [if_pos (recompute_self_root inv hi), if_neg (by omega : ¬(i = m.rightmostProof.index))]
  rfl

theorem prove_leaf_current_ok {m : MerkleRoll} {snaps : List Snap} (inv : Inv m snaps)
    {i : Nat} (hi : i < 2 ^ m.maxDepth) :
    m.prove_leaf ((getChangeLog m).root) ((snaps.getD 0 defaultSnap).L i)
      (sibList (snaps.getD 0 defaultSnap).L i m.maxDepth) i = Except.ok () := by
  unfold MerkleRoll.prove_leaf
  rw [if_neg (by omega : ¬(2 ^ m.maxDepth ≤ i))]
  rw [if_neg (by rw [sibList_length]; simp)]
  rw [findRoot_current inv]
  show (if recompute _ (sibList (snaps.getD 0 defaultSnap).L i m.maxDepth) i
      = (getChangeLog m).root then _ else _) = _
  rw [if_pos (recompute_self_root inv hi)]

theorem getD_append_len {α : Type} (d : α) :
    ∀ (xs ys : List α), (xs ++ ys).getD xs.length d = ys.getD 0 d := by
  intro xs ys
  induction xs with
  | nil => rfl
  | cons x xs ih => exact ih

theorem runAppends_reach :
    ∀ (vs : List Node) {m : MerkleRoll} {L : LeafF}, Reach m L →
      m.rightmostProof.index + vs.length ≤ 2 ^ m.maxDepth →
      ∃ m' L', runAppends m vs = Except.ok m' ∧ Reach m' L' ∧
        m'.rightmostProof.index = m.rightmostProof.index + vs.length ∧
        m'.maxDepth = m.maxDepth := by
  intro vs
  induction vs with
  | nil =>
    intro m L hr hcap
    exact ⟨m, L, rfl, hr, by simp, rfl⟩
  | cons v r ih =>
    intro m L hr hcap
    simp only [List.length_cons] at hcap
    have hlt : m.rightmostProof.index < 2 ^ m.maxDepth := by omega
    have happ := append_ok_of_lt v hlt
    obtain ⟨m', L', heq, hre, hidx, hdep⟩ :=
      ih (Reach.app v hr hlt) (by rw [appendOk_index, appendOk_maxDepth]; omega)
    refine ⟨m', L', ?_, hre, ?_, ?_⟩
    · show (match m.append v with
        | Except.ok m2 => runAppends m2 r
        | Except.error e => Except.error e) = Except.ok m'
      rw [happ]
      exact heq
    · rw [hidx, appendOk_index, List.length_cons]
      omega
    · rw [hdep, appendOk_maxDepth]

theorem evolve_inv {i : Nat} {m0 : MerkleRoll} {L0 : LeafF} {k : Nat}
    {m1 : MerkleRoll} {L1 : LeafF} (he : Evolve i m0 L0 k m1 L1) :
    ∀ {snaps : List Snap}, Inv m0 snaps → (snaps.getD 0 defaultSnap).L = L0 →
      i < m0.rightmostProof.index →
      ∃ pre : List Snap, Inv m1 (pre ++ snaps) ∧ pre.length = k ∧
        ((pre ++ snaps).getD 0 defaultSnap).L = L1 ∧
        (∀ e, e < k → ((pre ++ snaps).getD e defaultSnap).idx ≠ i) ∧
        m1.maxDepth = m0.maxDepth ∧ m0.rightmostProof.index ≤ m1.rightmostProof.index := by
  induction he with
  | refl =>
    intro snaps inv hh hidx
    exact ⟨[], inv, rfl, hh, by intro e he; omega, rfl, le_refl _⟩
  | app v h hlt ih =>
    rename_i kP m' L'
    intro snaps inv hh hidx
    obtain ⟨pre, inv', hlen, hhead, hunt, hdep, hile⟩ := ih inv hh hidx
    refine ⟨_ :: pre, inv_append inv' v hlt, by simp [hlen], ?_, ?_, ?_, ?_⟩
    · show updateL ((pre ++ snaps).getD 0 defaultSnap).L _ v = _
      rw [hhead]
    · intro e he
      cases e with
      | zero =>
        show m'.rightmostProof.index ≠ i
        omega
      | succ e => exact hunt e (by omega)
    · rw [appendOk_maxDepth]; exact hdep
    · rw [appendOk_index]; omega
  | set h hs hne ih =>
    rename_i kP m' L' m'' rootP prevP vP pfP jP
    intro snaps inv hh hidx
    obtain ⟨pre, inv', hlen, hhead, hunt, hdep, hile⟩ := ih inv hh hidx
    obtain ⟨hi2, hlen2, hidx2, d2, hfind2, hver2, hbr2⟩ := set_leaf_inv hs
    refine ⟨_ :: pre, inv_set inv' hs, by simp [hlen], ?_, ?_, ?_, ?_⟩
    · show updateL ((pre ++ snaps).getD 0 defaultSnap).L _ _ = _
      rw [hhead]
    · intro e he
      cases e with
      | zero => exact hne
      | succ e => exact hunt e (by omega)
    · rcases hbr2 with ⟨_, hm''⟩ | ⟨_, hm''⟩
      · subst hm''
        show m'.maxDepth = m0.maxDepth
        exact hdep
      · subst hm''
        show m'.maxDepth = m0.maxDepth
        exact hdep
    · rcases hbr2 with ⟨_, hm''⟩ | ⟨heq2, hm''⟩
      · subst hm''
        show m0.rightmostProof.index ≤ m'.rightmostProof.index
        exact hile
      · subst hm''
        show m0.rightmostProof.index ≤ jP + 1
        omega

theorem prove_leaf_window {m0 : MerkleRoll} {L0 : LeafF} {i k : Nat}
    {m1 : MerkleRoll} {L1 : LeafF} (hr : Reach m0 L0)
    (he : Evolve i m0 L0 k m1 L1) (hidx : i < m0.rightmostProof.index)
    (hk : k ≤ m1.bufferSize) :
    m1.prove_leaf ((getChangeLog m0).root) (L0 i) (sibList L0 i m0.maxDepth) i
      = Except.ok () := by
  obtain ⟨snaps, inv, hh⟩ := reach_inv hr
  obtain ⟨pre, inv1, hlen, hhead, hunt, hdep, hile⟩ := evolve_inv he inv hh hidx
  have hsnaps1 : 1 ≤ snaps.length := by
    rw [inv.slen]
    omega
  have hi : i < 2 ^ m0.maxDepth := by
    have := inv.ple
    omega
  have hi1 : i < 2 ^ m1.maxDepth := by rw [hdep]; exact hi
  have hSlen : (pre ++ snaps).length = k + snaps.length := by
    rw [List.length_append, hlen]
  have hgk : (pre ++ snaps).getD k defaultSnap = snaps.getD 0 defaultSnap := by
    rw [← hlen]
    exact getD_append_len defaultSnap pre snaps
  have hR : (getChangeLog m0).root = subRoot L0 m0.maxDepth 0 := by
    rw [inv_current_root inv, hh]
  have hcur1 : (getChangeLog m1).root = subRoot L1 m1.maxDepth 0 := by
    rw [inv_current_root inv1, hhead]
  have hstab : L1 i = L0 i := by
    have hst := snap_leaf_stable inv1 k (by omega) hunt
    rw [hgk, hh, hhead] at hst
    exact hst.symm
  have hver : recompute (L0 i) (sibList L1 i m1.maxDepth) i = (getChangeLog m1).root := by
    rw [recompute_sibList hi1, hcur1, ← hstab, updateL_self]
  unfold MerkleRoll.prove_leaf
  rw [if_neg (by omega : ¬ (2 ^ m1.maxDepth ≤ i))]
  rw [if_neg (by rw [sibList_length, hdep]; simp)]
  cases hfind : findRootFrom m1 ((getChangeLog m0).root) 0 with
  | some dstar =>
    obtain ⟨h0le, hdb, hroot⟩ := findRootFrom_some 0 dstar hfind
    have hdk : dstar ≤ k := by
      by_cases hklt : k < m1.bufferSize
      · have hrk : (ringAt m1 k).root = (getChangeLog m0).root := by
          rw [inv1.ring k hklt, hgk]
          show subRoot (snaps.getD 0 defaultSnap).L m1.maxDepth 0 = _
          rw [hh, hdep, hR]
        obtain ⟨d2, hd2, hd2le⟩ := findRootFrom_le hklt hrk
        rw [hfind] at hd2
        cases hd2
        exact hd2le
      · omega
    have hrr : subRoot ((pre ++ snaps).getD dstar defaultSnap).L m1.maxDepth 0
        = subRoot L0 m1.maxDepth 0 := by
      rw [inv1.ring dstar hdb] at hroot
      rw [show subRoot L0 m1.maxDepth 0 = (getChangeLog m0).root from by rw [hR, hdep]]
      exact hroot
    have hLag := root_inj hrr
    have hsib : sibList L0 i m0.maxDepth
        = sibList ((pre ++ snaps).getD dstar defaultSnap).L i m1.maxDepth := by
      rw [hdep]
      exact (sibList_congr (fun x hx => hLag x (by rw [hdep]; exact hx)) hi).symm
    have hff := ff_correct inv1 hi1 dstar (by omega) (by omega)
      (fun e helt => hunt e (by omega))
    show (if recompute (L0 i) (fastForward m1 i (sibList L0 i m0.maxDepth) dstar) i
        = (getChangeLog m1).root then Except.ok () else _) = Except.ok ()
    rw [hsib, hff, hhead]
    rw [if_pos hver]
  | none =>
    have hnk : ¬ k < m1.bufferSize := by
      intro hklt
      have hrk : (ringAt m1 k).root = (getChangeLog m0).root := by
        rw [inv1.ring k hklt, hgk]
        show subRoot (snaps.getD 0 defaultSnap).L m1.maxDepth 0 = _
        rw [hh, hdep, hR]
      exact findRootFrom_none 0 hfind k (by omega) hklt hrk
    have hkb : k = m1.bufferSize := by omega
    have hff := ff_correct inv1 hi1 k (by omega) (by omega) hunt
    rw [hgk, hh] at hff
    show (if recompute (L0 i) (fastForward m1 i (sibList L0 i m0.maxDepth) m1.bufferSize) i
        = (getChangeLog m1).root then Except.ok () else _) = Except.ok ()
    rw [← hkb, show sibList L0 i m0.maxDepth = sibList L0 i m1.maxDepth from by rw [hdep]]
    rw [hff, hhead]
    rw [if_pos hver]

theorem set_leaf_window {m0 : MerkleRoll} {L0 : LeafF} {i k : Nat}
    {m1 : MerkleRoll} {L1 : LeafF} (hr : Reach m0 L0)
    (he : Evolve i m0 L0 k m1 L1) (hidx : i < m0.rightmostProof.index)
    (hk : k < m1.bufferSize) (v : Node) :
    ∃ m2, m1.set_leaf ((getChangeLog m0).root) (L0 i) v (sibList L0 i m0.maxDepth) i
      = Except.ok m2 := by
  obtain ⟨snaps, inv, hh⟩ := reach_inv hr
  obtain ⟨pre, inv1, hlen, hhead, hunt, hdep, hile⟩ := evolve_inv he inv hh hidx
  have hsnaps1 : 1 ≤ snaps.length := by
    rw [inv.slen]
    omega
  have hi : i < 2 ^ m0.maxDepth := by
    have := inv.ple
    omega
  have hi1 : i < 2 ^ m1.maxDepth := by rw [hdep]; exact hi
  have hSlen : (pre ++ snaps).length = k + snaps.length := by
    rw [List.length_append, hlen]
  have hgk : (pre ++ snaps).getD k defaultSnap = snaps.getD 0 defaultSnap := by
    rw [← hlen]
    exact getD_append_len defaultSnap pre snaps
  have hR : (getChangeLog m0).root = subRoot L0 m0.maxDepth 0 := by
    rw [inv_current_root inv, hh]
  have hcur1 : (getChangeLog m1).root = subRoot L1 m1.maxDepth 0 := by
    rw [inv_current_root inv1, hhead]
  have hstab : L1 i = L0 i := by
    have hst := snap_leaf_stable inv1 k (by omega) hunt
    rw [hgk, hh, hhead] at hst
    exact hst.symm
  have hver : recompute (L0 i) (sibList L1 i m1.maxDepth) i = (getChangeLog m1).root := by
    rw [recompute_sibList hi1, hcur1, ← hstab, updateL_self]
  have hrk : (ringAt m1 k).root = (getChangeLog m0).root := by
    rw [inv1.ring k hk, hgk]
    show subRoot (snaps.getD 0 defaultSnap).L m1.maxDepth 0 = _
    rw [hh, hdep, hR]
  obtain ⟨dstar, hfind, hdk⟩ := findRootFrom_le hk hrk
  obtain ⟨h0le, hdb, hroot⟩ := findRootFrom_some 0 dstar hfind
  have hrr : subRoot ((pre ++ snaps).getD dstar defaultSnap).L m1.maxDepth 0
      = subRoot L0 m1.maxDepth 0 := by
    rw [inv1.ring dstar hdb] at hroot
    rw [show subRoot L0 m1.maxDepth 0 = (getChangeLog m0).root from by rw [hR, hdep]]
    exact hroot
  have hLag := root_inj hrr
  have hsib : sibList L0 i m0.maxDepth
      = sibList ((pre ++ snaps).getD dstar defaultSnap).L i m1.maxDepth := by
    rw [hdep]
    exact (sibList_congr (fun x hx => hLag x (by rw [hdep]; exact hx)) hi).symm
  have hff := ff_correct inv1 hi1 dstar (by omega) (by omega)
    (fun e helt => hunt e (by omega))
  have hifr : i < m1.rightmostProof.index := by omega
  refine ⟨setLeafOk m1 v (fastForward m1 i (sibList L0 i m0.maxDepth) dstar) i, ?_⟩
  unfold MerkleRoll.set_leaf
  rw [if_neg (by omega : ¬ (2 ^ m1.maxDepth ≤ i))]
  rw [if_neg (by rw [sibList_length, hdep]; simp)]
  rw [if_neg (by omega : ¬ (m1.rightmostProof.index < i))]
  rw [hfind]
  show (if recompute (L0 i) (fastForward m1 i (sibList L0 i m0.maxDepth) dstar) i
      = (getChangeLog m1).root then _ else _) = _
  rw [hsib, hff, hhead]
  rw [if_pos hver, if_neg (by omega : ¬ (i = m1.rightmostProof.index))]

theorem leBytes_length (k : Nat) : ∀ n, (leBytes k n).length = k := by
  induction k with
  | zero => intro n; rfl
  | succ k ih =>
    intro n
    show (n % 256 :: leBytes k (n / 256)).length = k + 1
    rw [List.length_cons, ih]

theorem fromLeBytes_leBytes (k : Nat) : ∀ n, fromLeBytes (leBytes k n) = n % 256 ^ k := by
  induction k with
  | zero =>
    intro n
    show (0 : Nat) = n % 256 ^ 0
    rw [pow_zero, Nat.mod_one]
  | succ k ih =>
    intro n
    show n % 256 + 256 * fromLeBytes (leBytes k (n / 256)) = n % 256 ^ (k + 1)
    rw [ih, pow_succ', Nat.mod_mul]

theorem leBytes_lt (k : Nat) : ∀ n, ∀ b ∈ leBytes k n, b < 256 := by
  induction k with
  | zero =>
    intro n b hb
    simp [leBytes] at hb
  | succ k ih =>
    intro n b hb
    rcases List.mem_cons.mp hb with h | h
    · subst h
      omega
    · exact ih (n / 256) b h

/-! ## Aligned-subtree splice machinery -/

theorem div_pow_add (a d t : Nat) : a / 2 ^ d / 2 ^ t = a / 2 ^ (d + t) := by
  rw [Nat.div_div_eq_div_mul, pow_add]

theorem getD_drop {α : Type} (dflt : α) : ∀ (n : Nat) (l : List α) (t : Nat),
    (l.drop n).getD t dflt = l.getD (n + t) dflt := by
  intro n
  induction n with
  | zero => intro l t; rw [List.drop_zero, Nat.zero_add]
  | succ n ih =>
    intro l t
    cases l with
    | nil => rfl
    | cons x xs =>
      show (xs.drop n).getD t dflt = _
      rw [ih xs t]
      have he : n + 1 + t = (n + t) + 1 := by omega
      rw [he]
      rfl

theorem subRoot_decomp (h2 : Nat) : ∀ (L : LeafF) (h1 k : Nat),
    subRoot L (h1 + h2) k = subRoot (fun y => subRoot L h1 y) h2 k := by
  induction h2 with
  | zero => intro L h1 k; rfl
  | succ h2 ih =>
    intro L h1 k
    show Node.hash (subRoot L (h1 + h2) (2 * k)) (subRoot L (h1 + h2) (2 * k + 1))
      = Node.hash _ _
    rw [ih L h1 (2 * k), ih L h1 (2 * k + 1)]

theorem subRoot_const_empty (d : Nat) : ∀ (t k : Nat),
    subRoot (fun _ => emptyRoot d) t k = emptyRoot (d + t) := by
  intro t
  induction t with
  | zero => intro k; rfl
  | succ t ih =>
    intro k
    show Node.hash (subRoot (fun _ => emptyRoot d) t (2 * k))
      (subRoot (fun _ => emptyRoot d) t (2 * k + 1)) = emptyRoot (d + (t + 1))
    rw [ih (2 * k), ih (2 * k + 1)]
    show Node.hash (emptyRoot (d + t)) (emptyRoot (d + t)) = emptyRoot (d + t + 1)
    rfl

theorem subRoot_shift : ∀ (d : Nat) (A B : LeafF) (q r : Nat),
    (∀ x, x / 2 ^ d = q → A x = B (x - q * 2 ^ d + r * 2 ^ d)) →
    subRoot A d q = subRoot B d r := by
  intro d
  induction d with
  | zero =>
    intro A B q r hAB
    have h := hAB q (by simp)
    show A q = B r
    rw [h]
    norm_num
  | succ d ih =>
    intro A B q r hAB
    show Node.hash (subRoot A d (2 * q)) (subRoot A d (2 * q + 1))
      = Node.hash (subRoot B d (2 * r)) (subRoot B d (2 * r + 1))
    have h1 : subRoot A d (2 * q) = subRoot B d (2 * r) := by
      refine ih A B (2 * q) (2 * r) ?_
      intro x hx
      have hq : x / 2 ^ (d + 1) = q := by
        rw [div_pow_succ, hx]
        omega
      have hA := hAB x hq
      have hbig : (2 * q) * 2 ^ d ≤ x := by
        have hself := Nat.div_mul_le_self x (2 ^ d)
        rw [hx] at hself
        exact hself
      have harg : x - q * 2 ^ (d + 1) + r * 2 ^ (d + 1)
          = x - 2 * q * 2 ^ d + 2 * r * 2 ^ d := by
        have e1 : q * 2 ^ (d + 1) = q * 2 ^ d + q * 2 ^ d := by ring
        have e2 : r * 2 ^ (d + 1) = r * 2 ^ d + r * 2 ^ d := by ring
        have e3 : 2 * q * 2 ^ d = q * 2 ^ d + q * 2 ^ d := by ring
        have e4 : 2 * r * 2 ^ d = r * 2 ^ d + r * 2 ^ d := by ring
        omega
      rw [hA, harg]
    have h2 : subRoot A d (2 * q + 1) = subRoot B d (2 * r + 1) := by
      refine ih A B (2 * q + 1) (2 * r + 1) ?_
      intro x hx
      have hq : x / 2 ^ (d + 1) = q := by
        rw [div_pow_succ, hx]
        omega
      have hA := hAB x hq
      have hbig : (2 * q + 1) * 2 ^ d ≤ x := by
        have hself := Nat.div_mul_le_self x (2 ^ d)
        rw [hx] at hself
        exact hself
      have hbig2 : q * 2 ^ (d + 1) ≤ x := by
        refine le_trans ?_ hbig
        have e1 : q * 2 ^ (d + 1) = 2 * q * 2 ^ d := by ring
        rw [e1]
        exact Nat.mul_le_mul_right _ (by omega)
      have harg : x - q * 2 ^ (d + 1) + r * 2 ^ (d + 1)
          = x - (2 * q + 1) * 2 ^ d + (2 * r + 1) * 2 ^ d := by
        zify [hbig, hbig2]
        ring
      rw [hA, harg]
    rw [h1, h2]

theorem div_eq_of_aligned {i x d : Nat} (halign : i % 2 ^ d = 0) (h1 : i ≤ x)
    (h2 : x < i + 2 ^ d) : x / 2 ^ d = i / 2 ^ d := by
  have hp : 0 < 2 ^ d := Nat.pos_pow_of_pos d (by omega)
  obtain ⟨c, hc⟩ := Nat.dvd_of_mod_eq_zero halign
  subst hc
  rw [Nat.mul_div_cancel_left c hp]
  have e1 : c * 2 ^ d = 2 ^ d * c := Nat.mul_comm c (2 ^ d)
  have e2 : (c + 1) * 2 ^ d = 2 ^ d * c + 2 ^ d := by ring
  exact Nat.div_eq_of_lt_le (by omega) (by omega)

theorem spliceCoarse_eq {L S : LeafF} {i d rmi : Nat}
    (halign : i % 2 ^ d = 0) (hempt : ∀ x, i ≤ x → L x = Node.empty)
    (hSempty : ∀ x, rmi ≤ x → S x = Node.empty) (hrmi2 : rmi ≤ 2 ^ d) :
    ∀ y, subRoot (spliceL L i rmi S) d y
      = updateL (fun z => subRoot L d z) (i / 2 ^ d) (subRoot S d 0) y := by
  intro y
  have hp : 0 < 2 ^ d := Nat.pos_pow_of_pos d (by omega)
  have hi : i / 2 ^ d * 2 ^ d = i := Nat.div_mul_cancel (Nat.dvd_of_mod_eq_zero halign)
  by_cases hy : y = i / 2 ^ d
  · subst hy
    rw [show updateL (fun z => subRoot L d z) (i / 2 ^ d) (subRoot S d 0) (i / 2 ^ d)
      = subRoot S d 0 from by unfold updateL; rw [if_pos rfl]]
    refine subRoot_shift d _ S (i / 2 ^ d) 0 ?_
    intro x hx
    have hxge : i ≤ x := by
      have hdm := Nat.div_mul_le_self x (2 ^ d)
      rw [hx] at hdm
      omega
    have hxlt : x < i + 2 ^ d := by
      have hmod := Nat.mod_lt x hp
      have hdm := Nat.div_add_mod x (2 ^ d)
      rw [hx] at hdm
      have e : 2 ^ d * (i / 2 ^ d) = i / 2 ^ d * 2 ^ d := Nat.mul_comm _ _
      omega
    show spliceL L i rmi S x = S (x - i / 2 ^ d * 2 ^ d + 0 * 2 ^ d)
    rw [hi, Nat.zero_mul, Nat.add_zero]
    unfold spliceL
    by_cases hfill : x < i + rmi
    · rw [if_pos ⟨hxge, hfill⟩]
    · rw [if_neg (fun hand => hfill hand.2)]
      rw [hempt x hxge, hSempty (x - i) (by omega)]
  · rw [show updateL (fun z => subRoot L d z) (i / 2 ^ d) (subRoot S d 0) y
      = subRoot L d y from by unfold updateL; rw [if_neg hy]]
    refine subRoot_congr d y ?_
    intro x hx
    unfold spliceL
    rw [if_neg ?_]
    intro hand
    apply hy
    rw [← hx]
    exact div_eq_of_aligned halign hand.1 (by have := hand.2; omega)

theorem upper_sibs_eq {m : MerkleRoll} {snaps : List Snap} (inv : Inv m snaps)
    {d : Nat} (hdD : d ≤ m.maxDepth) :
    appendSibs (m.rightmostProof.proof.drop d) (m.rightmostProof.index / 2 ^ d) d
      = sibList (fun y => subRoot (snaps.getD 0 defaultSnap).L d y)
          (m.rightmostProof.index / 2 ^ d) (m.maxDepth - d) := by
  refine list_ext_getD ?_ ?_
  · rw [appendSibs_length, List.length_drop, inv.plen, sibList_length]
  · intro t ht
    rw [appendSibs_length, List.length_drop, inv.plen] at ht
    rw [appendSibs_getD _ _ _ _ (by rw [List.length_drop, inv.plen]; exact ht)]
    rw [sibList_getD _ _ _ _ ht]
    rw [div_pow_add m.rightmostProof.index d t]
    by_cases hbit : (m.rightmostProof.index / 2 ^ (d + t)) % 2 = 1
    · rw [if_pos hbit]
      rw [getD_drop default d m.rightmostProof.proof t]
      rw [inv.rmpP (d + t) (by omega) hbit]
      rw [sib_odd hbit]
      exact subRoot_decomp t _ d _
    · rw [if_neg hbit, sib_even (by omega)]
      have hc : subRoot (fun y => subRoot (snaps.getD 0 defaultSnap).L d y) t
          (m.rightmostProof.index / 2 ^ (d + t) + 1)
          = subRoot (fun _ => emptyRoot d) t
            (m.rightmostProof.index / 2 ^ (d + t) + 1) := by
      
        refine subRoot_congr t _ ?_
        intro y hy
        show subRoot (snaps.getD 0 defaultSnap).L d y = emptyRoot d
        refine subRoot_emptyOn ?_
        intro x hxy
        refine inv.empt x ?_
        have h1 : y * 2 ^ d ≤ x := by
          have hself := Nat.div_mul_le_self x (2 ^ d)
          rw [hxy] at hself
          exact hself
        have h2 : (m.rightmostProof.index / 2 ^ (d + t) + 1) * 2 ^ t ≤ y := by
          have hself := Nat.div_mul_le_self y (2 ^ t)
          rw [hy] at hself
          exact hself
        have h3 : m.rightmostProof.index
            < (m.rightmostProof.index / 2 ^ (d + t) + 1) * 2 ^ (d + t) := by
          have hdm := Nat.div_add_mod m.rightmostProof.index (2 ^ (d + t))
          have hml := Nat.mod_lt m.rightmostProof.index
            (show 0 < 2 ^ (d + t) from Nat.pos_pow_of_pos _ (by omega))
          have e : (m.rightmostProof.index / 2 ^ (d + t) + 1) * 2 ^ (d + t)
              = 2 ^ (d + t) * (m.rightmostProof.index / 2 ^ (d + t)) + 2 ^ (d + t) := by
            ring
          omega
        have h4 : (m.rightmostProof.index / 2 ^ (d + t) + 1) * 2 ^ (d + t)
            ≤ y * 2 ^ d := by
          have e : (m.rightmostProof.index / 2 ^ (d + t) + 1) * 2 ^ (d + t)
              = ((m.rightmostProof.index / 2 ^ (d + t) + 1) * 2 ^ t) * 2 ^ d := by
            rw [pow_add]
            ring
          rw [e]
          exact Nat.mul_le_mul_right _ h2
        omega
      rw [hc, subRoot_const_empty d t]

theorem appendOk_root_of {m2 : MerkleRoll} {L2 : LeafF} (v : Node)
    (hplen : m2.rightmostProof.proof.length = m2.maxDepth)
    (hlt : m2.rightmostProof.index < 2 ^ m2.maxDepth)
    (hP : ∀ h, h < m2.maxDepth → (m2.rightmostProof.index / 2 ^ h) % 2 = 1 →
      m2.rightmostProof.proof.getD h default
        = subRoot L2 h (m2.rightmostProof.index / 2 ^ h - 1))
    (hem : ∀ j, m2.rightmostProof.index ≤ j → L2 j = Node.empty)
    (ha : m2.activeIndex < m2.maxBufferSize)
    (hclen : m2.changeLogs.length = m2.maxBufferSize) :
    m2.append v = Except.ok (appendOk m2 v) ∧
    (getChangeLog (appendOk m2 v)).root
      = subRoot (updateL L2 m2.rightmostProof.index v) m2.maxDepth 0 := by
  refine ⟨append_ok_of_lt v hlt, ?_⟩
  show (getChangeLog (publish m2 _ _)).root = _
  rw [getChangeLog_publish _ _ _ ha hclen]
  show (bubblePath v (appendSibs m2.rightmostProof.proof m2.rightmostProof.index 0)
    m2.rightmostProof.index).1 = _
  rw [append_sibs_eq_of v hplen hP hem]
  rw [bubblePath_correct m2.maxDepth (updateL L2 m2.rightmostProof.index v) v
    m2.rightmostProof.index 0 m2.rightmostProof.index
    (by simp [Nat.mod_eq_of_lt hlt])]
  show subRoot (updateL (updateL L2 m2.rightmostProof.index v) m2.rightmostProof.index v)
    m2.maxDepth 0 = _
  rw [updateL_override]

/-! ## The claims -/

/-- C1: for every reachable state — any sequence of successful mutations (any
mix of `append` and `set_leaf` calls at any indices) applied after
`initialize` — the root reported by `get_change_log()` equals the root of the
reference depth-`D` Merkle tree recomputed in full over the same leaf
assignment; immediately after `initialize` that assignment is all-EMPTY, so
the root is the empty-tree root. -/
theorem C1_engine_root_matches_reference {m : MerkleRoll} {L : LeafF}
    (h : Reach m L) : (getChangeLog m).root = subRoot L m.maxDepth 0 :=
  reach_current_root h

/-- Witness for C1: the freshly initialized depth-2 roll reports the reference
root of the all-EMPTY assignment. -/
theorem C1_engine_root_matches_reference_witness :
    (getChangeLog (initMut (newRoll 2 2))).root = subRoot emptyL 2 0 :=
  C1_engine_root_matches_reference (Reach.init 2 2 (by decide))

/-- C2 (amended): a `prove_leaf` call presenting the proof of leaf `i` taken
at a reachable state is accepted after any `k ≤ buffer_size` further
successful mutations avoiding index `i`, and a `set_leaf` with the same
saved material is accepted whenever `k < buffer_size` (the saved root is
then still buffered); neither bound is an 'iff'.  In the repository's
stale-proof scenario (ten appends, then replaces of other leaves with fresh
proofs), after `buffer_size = 4` replaces the saved proof of leaf 0 still
proves via `prove_leaf`, after one further replace the same `prove_leaf`
call returns `RootNotFound`, and at distance exactly `buffer_size` the
analogous `set_leaf` already fails with `RootNotFound` because the saved
root has left the ring. -/
theorem C2_acceptance_window {m0 : MerkleRoll} {L0 : LeafF} {i k : Nat}
    {m1 : MerkleRoll} {L1 : LeafF} (hr : Reach m0 L0)
    (he : Evolve i m0 L0 k m1 L1) (hidx : i < m0.rightmostProof.index)
    (hk : k ≤ m1.bufferSize) (v : Node) :
    (m1.prove_leaf ((getChangeLog m0).root) (L0 i) (sibList L0 i m0.maxDepth) i
      = Except.ok ())
    ∧ (k < m1.bufferSize →
        ∃ m2, m1.set_leaf ((getChangeLog m0).root) (L0 i) v (sibList L0 i m0.maxDepth) i
          = Except.ok m2)
    ∧ ((c2Final.1).prove_leaf (subRoot c2L10 4 0) (c2L10 0) (sibList c2L10 0 4) 0
      = Except.ok ())
    ∧ ((c2Five.1).prove_leaf (subRoot c2L10 4 0) (c2L10 0) (sibList c2L10 0 4) 0
      = Except.error CMTError.RootNotFound)
    ∧ ((c2Final.1).set_leaf (subRoot c2L10 4 0) (c2L10 0) (Node.leaf 99) (sibList c2L10 0 4) 0
      = Except.error CMTError.RootNotFound) :=
  ⟨prove_leaf_window hr he hidx hk,
   fun hk2 => set_leaf_window hr he hidx hk2 v,
   rfl, rfl, rfl⟩

/-- Witness for C2 (amended), at the one-leaf depth-2 roll with an empty
mutation window. -/
theorem C2_acceptance_window_witness :
    (c3m1.prove_leaf ((getChangeLog c3m1).root) (c3L1 0) (sibList c3L1 0 2) 0
      = Except.ok ())
    ∧ (0 < c3m1.bufferSize →
        ∃ m2, c3m1.set_leaf ((getChangeLog c3m1).root) (c3L1 0) (Node.leaf 9)
          (sibList c3L1 0 2) 0 = Except.ok m2)
    ∧ ((c2Final.1).prove_leaf (subRoot c2L10 4 0) (c2L10 0) (sibList c2L10 0 4) 0
      = Except.ok ())
    ∧ ((c2Five.1).prove_leaf (subRoot c2L10 4 0) (c2L10 0) (sibList c2L10 0 4) 0
      = Except.error CMTError.RootNotFound)
    ∧ ((c2Final.1).set_leaf (subRoot c2L10 4 0) (c2L10 0) (Node.leaf 99) (sibList c2L10 0 4) 0
      = Except.error CMTError.RootNotFound) :=
  C2_acceptance_window
    (Reach.app (Node.leaf 1) (Reach.init 2 4 (by decide)) (by decide))
    (Evolve.refl c3m1 c3L1) (by decide) (Nat.zero_le _) (Node.leaf 9)

/-- Counterexample to C2 as stated, refuting BOTH directions of the claimed
'accepted iff t' - t ≤ buffer_size and leaf untouched'.  If-direction for
`set_leaf`: after ten appends and exactly `buffer_size = 4` replaces of
leaves 1–4 (leaf 0 untouched), the `set_leaf` presenting leaf 0's saved root
and proof is rejected with `RootNotFound` although the claim promises
acceptance.  Only-if direction for `prove_leaf`: after FIVE replaces all at
leaf 1 — distance `buffer_size + 1`, outside the claimed window — the same
saved `prove_leaf` call is still accepted, because the newest buffered entry
alone repairs every stale position of the proof during the full-buffer
replay. -/
theorem C2_counterexample :
    (c2Final.1.sequenceNumber = c2m10.sequenceNumber + 4
      ∧ c2Final.1.bufferSize = 4
      ∧ c2Final.2 0 = c2L10 0
      ∧ (c2Final.1).set_leaf (subRoot c2L10 4 0) (c2L10 0) (Node.leaf 99)
          (sibList c2L10 0 4) 0 = Except.error CMTError.RootNotFound)
    ∧ (c2Same.1.sequenceNumber = c2m10.sequenceNumber + 5
      ∧ c2Same.1.bufferSize = 4
      ∧ c2Same.2 0 = c2L10 0
      ∧ (c2Same.1).prove_leaf (subRoot c2L10 4 0) (c2L10 0) (sibList c2L10 0 4) 0
          = Except.ok ()) :=
  ⟨⟨rfl, rfl, rfl, rfl⟩, ⟨rfl, rfl, rfl, rfl⟩⟩

/-- C3: from any reachable state with ring capacity at least 2, if leaf `i`
holding value `L i` is overwritten with a different value `v` through a
successful `set_leaf` using the saved current root and proof, then a second
`set_leaf` presenting the same saved root, the stale leaf value and the stale
proof fails with `LeafContentsModified` — not with `RootNotFound` and not with
success — whatever replacement value `w` is supplied. -/
theorem C3_overwrite_detected {m : MerkleRoll} {L : LeafF} (hr : Reach m L)
    (hB : 2 ≤ m.maxBufferSize) {i : Nat} {v : Node} (hv : v ≠ L i) (w : Node)
    {m' : MerkleRoll}
    (hfst : m.set_leaf ((getChangeLog m).root) (L i) v (sibList L i m.maxDepth) i
      = Except.ok m') :
    m'.set_leaf ((getChangeLog m).root) (L i) w (sibList L i m.maxDepth) i
      = Except.error CMTError.LeafContentsModified := by
  obtain ⟨snaps, inv, hh⟩ := reach_inv hr
  obtain ⟨hi, hlen, hidx, d, hfind, hver, hbr⟩ := set_leaf_inv hfst
  have hR : (getChangeLog m).root = subRoot L m.maxDepth 0 := by
    rw [inv_current_root inv, hh]
  have inv' := inv_set inv hfst
  rw [hh] at inv'
  have hdep' : m'.maxDepth = m.maxDepth := by
    rcases hbr with ⟨_, hm'⟩ | ⟨_, hm'⟩
    · subst hm'
      rfl
    · subst hm'
      rfl
  have hfr' : i < m'.rightmostProof.index := by
    rcases hbr with ⟨hlt2, hm'⟩ | ⟨heq2, hm'⟩
    · subst hm'
      show i < m.rightmostProof.index
      exact hlt2
    · subst hm'
      show i < i + 1
      omega
  have hb2 : 2 ≤ m'.bufferSize := by
    have h1 := inv_buffer_pos inv
    rcases hbr with ⟨_, hm'⟩ | ⟨_, hm'⟩
    · subst hm'
      show 2 ≤ min (m.bufferSize + 1) m.maxBufferSize
      omega
    · subst hm'
      show 2 ≤ min (m.bufferSize + 1) m.maxBufferSize
      omega
  have hro0 : (ringAt m' 0).root = subRoot (updateL L i v) m'.maxDepth 0 := by
    rw [inv'.ring 0 (by omega)]
    rfl
  have hrne : subRoot (updateL L i v) m'.maxDepth 0 ≠ (getChangeLog m).root := by
    rw [hR, hdep']
    intro hc
    have hLi := root_inj hc i hi
    unfold updateL at hLi
    rw [if_pos rfl] at hLi
    exact hv hLi
  have hro1 : (ringAt m' 1).root = (getChangeLog m).root := by
    rw [inv'.ring 1 (by omega)]
    show subRoot (snaps.getD 0 defaultSnap).L m'.maxDepth 0 = _
    rw [hh, hdep', hR]
  have hfind' : findRootFrom m' ((getChangeLog m).root) 0 = some 1 := by
    show findRootAux m' _ 0 (m'.bufferSize - 0) = some 1
    obtain ⟨r, hr2⟩ : ∃ r, m'.bufferSize - 0 = r + 2 := ⟨m'.bufferSize - 2, by omega⟩
    rw [hr2]
    show (if (ringAt m' 0).root = (getChangeLog m).root then some 0
        else if (ringAt m' 1).root = (getChangeLog m).root then some 1
        else _) = some 1
    rw [if_neg (by rw [hro0]; exact hrne), if_pos hro1]
  have hidxcl : (ringAt m' 0).index = i := by
    rw [inv'.ring 0 (by omega)]
    rfl
  have hffid : fastForward m' i (sibList L i m.maxDepth) 1 = sibList L i m.maxDepth := by
    show applyEntry (ringAt m' 0) i (sibList L i m.maxDepth) = _
    unfold applyEntry
    rw [if_pos hidxcl]
  have hcur' : (getChangeLog m').root = subRoot (updateL L i v) m'.maxDepth 0 := by
    rw [inv_current_root inv']
    rfl
  have hverneg : recompute (L i) (sibList L i m.maxDepth) i ≠ (getChangeLog m').root := by
    rw [hcur', hdep', recompute_sibList hi (L i), updateL_self]
    intro hc
    refine hrne ?_
    rw [hR, hdep']
    exact hc.symm
  unfold MerkleRoll.set_leaf
  rw [if_neg (show ¬ (2 ^ m'.maxDepth ≤ i) from by rw [hdep']; omega)]
  rw [if_neg (show ¬ ((sibList L i m.maxDepth).length ≠ m'.maxDepth) from by
    rw [sibList_length, hdep']; simp)]
  rw [if_neg (show ¬ (m'.rightmostProof.index < i) from by omega)]
  rw [hfind']
  show (if recompute (L i) (fastForward m' i (sibList L i m.maxDepth) 1) i
      = (getChangeLog m').root then _ else _) = _
  rw [hffid, if_neg hverneg]

/-- Witness for C3: the depth-2, capacity-4 run — append leaf `1`, overwrite
slot 0 with leaf `2` using the saved root and proof, then replay the stale
`set_leaf`; it reports `LeafContentsModified`. -/
theorem C3_overwrite_detected_witness :
    c3m2.set_leaf ((getChangeLog c3m1).root) (c3L1 0) (Node.leaf 3) (sibList c3L1 0 2) 0
      = Except.error CMTError.LeafContentsModified :=
  C3_overwrite_detected
    (Reach.app (Node.leaf 1) (Reach.init 2 4 (by decide)) (by decide))
    (by decide) (by decide) (Node.leaf 3) (rfl :
      c3m1.set_leaf ((getChangeLog c3m1).root) (c3L1 0) (Node.leaf 2) (sibList c3L1 0 2) 0
        = Except.ok c3m2)

/-- C4: for a roll of depth `D` (any ring capacity `B ≥ 1`), every one of the
first `2 ^ D` appends after `initialize` succeeds, bringing
`rightmost_proof.index` to `2 ^ D`; in that state every further append — and
more generally any append on any roll whose frontier equals `2 ^ maxDepth` —
fails with `TreeFull`, while `prove_leaf` and `set_leaf` with current proofs
still succeed on every existing leaf.  Instantiated at `D = 14` by the
witness: the 16,385th append returns `TreeFull`. -/
theorem C4_tree_full_at_capacity {D B : Nat} (hB : 1 ≤ B) {vs : List Node}
    (hlen : vs.length = 2 ^ D) :
    (∀ (mm : MerkleRoll) (v : Node), mm.rightmostProof.index = 2 ^ mm.maxDepth →
      mm.append v = Except.error CMTError.TreeFull)
    ∧ ∃ m', runAppends (initMut (newRoll D B)) vs = Except.ok m'
      ∧ m'.maxDepth = D ∧ m'.rightmostProof.index = 2 ^ D
      ∧ (∀ v, m'.append v = Except.error CMTError.TreeFull)
      ∧ (∀ i, i < 2 ^ D → ∃ L : LeafF, ∃ m'',
          m'.prove_leaf ((getChangeLog m').root) (L i) (sibList L i D) i = Except.ok ()
          ∧ m'.set_leaf ((getChangeLog m').root) (L i) (L i) (sibList L i D) i
            = Except.ok m'') := by
  refine ⟨fun mm v hfull => append_full v hfull, ?_⟩
  have hr0 : Reach (initMut (newRoll D B)) emptyL := Reach.init D B hB
  have hcap : (initMut (newRoll D B)).rightmostProof.index + vs.length
      ≤ 2 ^ (initMut (newRoll D B)).maxDepth := by
    show 0 + vs.length ≤ 2 ^ D
    omega
  obtain ⟨m', L', heq, hre, hidx, hdep⟩ := runAppends_reach vs hr0 hcap
  have hidx' : m'.rightmostProof.index = 2 ^ D := by
    rw [hidx]
    show 0 + vs.length = 2 ^ D
    omega
  obtain ⟨snaps, inv, hh⟩ := reach_inv hre
  refine ⟨m', heq, hdep, hidx', fun v => append_full v (by rw [hidx', hdep]; rfl), ?_⟩
  intro i hi
  have hi' : i < 2 ^ m'.maxDepth := by rw [hdep]; exact hi
  have hfr : i < m'.rightmostProof.index := by rw [hidx']; exact hi
  have hprove := prove_leaf_current_ok inv hi'
  have hset := set_leaf_current_ok inv hfr ((snaps.getD 0 defaultSnap).L i)
  rw [hdep] at hprove hset
  exact ⟨(snaps.getD 0 defaultSnap).L, _, hprove, hset⟩

/-- Witness for C4 at depth 14, ring capacity 64: 16,384 appends succeed and
the next append returns `TreeFull`. -/
theorem C4_tree_full_at_capacity_witness :
    (∀ (mm : MerkleRoll) (v : Node), mm.rightmostProof.index = 2 ^ mm.maxDepth →
      mm.append v = Except.error CMTError.TreeFull)
    ∧ ∃ m', runAppends (initMut (newRoll 14 64)) (List.replicate 16384 (Node.leaf 0))
        = Except.ok m'
      ∧ m'.maxDepth = 14 ∧ m'.rightmostProof.index = 2 ^ 14
      ∧ (∀ v, m'.append v = Except.error CMTError.TreeFull)
      ∧ (∀ i, i < 2 ^ 14 → ∃ L : LeafF, ∃ m'',
          m'.prove_leaf ((getChangeLog m').root) (L i) (sibList L i 14) i = Except.ok ()
          ∧ m'.set_leaf ((getChangeLog m').root) (L i) (L i) (sibList L i 14) i
            = Except.ok m'') :=
  C4_tree_full_at_capacity (by decide)
    (by rw [List.length_replicate]; decide)

/-- C5 (amended): from any reachable state whose frontier `i` is aligned to a
`2^d` boundary with room for a depth-`d` subtree, `append_subtree_direct`
with a well-formed — possibly partially filled — depth-`d` subtree succeeds.
The subtree is described by its leaf assignment `S`: slots `0 … rmi - 1`
filled, everything from its rightmost index `rmi` on EMPTY, and its root,
rightmost leaf and internal rightmost proof recompute from `S`.  The
resulting root equals the reference tree obtained by appending the subtree's
filled leaves leaf-by-leaf in order at the frontier, the unfilled positions
of the spliced subtree stay EMPTY in the reference, and the new frontier is
`i + rmi` — the first unfilled slot, which for a partial subtree lies INSIDE
the spliced region.  A subsequent ordinary append (whenever capacity remains)
lands at `i + rmi` — filling a partial subtree's first hole rather than
landing past the subtree — and its root again matches the reference. -/
theorem C5_aligned_subtree_splice {m : MerkleRoll} {L : LeafF} (hr : Reach m L)
    {d rmi : Nat} {S : LeafF} {root rml : Node} {proof : List Node}
    (hd : proof.length = d) (hdD : d ≤ m.maxDepth)
    (halign : m.rightmostProof.index % 2 ^ d = 0)
    (hcap : m.rightmostProof.index + 2 ^ d ≤ 2 ^ m.maxDepth)
    (hrmi1 : 1 ≤ rmi) (hrmi2 : rmi ≤ 2 ^ d)
    (hSempty : ∀ x, rmi ≤ x → S x = Node.empty)
    (hroot : root = subRoot S d 0)
    (hrml : rml = S (rmi - 1))
    (hsibs : appendSibs proof (rmi - 1) 0 = sibList S (rmi - 1) d)
    (hpP : ∀ h, h < d → (rmi / 2 ^ h) % 2 = 1 →
      proof.getD h default = subRoot S h (rmi / 2 ^ h - 1)) :
    ∃ msp, m.append_subtree_direct root rml rmi proof = Except.ok msp
      ∧ (getChangeLog msp).root
          = subRoot (spliceL L m.rightmostProof.index rmi S) m.maxDepth 0
      ∧ msp.rightmostProof.index = m.rightmostProof.index + rmi
      ∧ (∀ x, m.rightmostProof.index + rmi ≤ x →
          spliceL L m.rightmostProof.index rmi S x = Node.empty)
      ∧ (m.rightmostProof.index + rmi < 2 ^ m.maxDepth → ∀ v, ∃ mapp,
          msp.append v = Except.ok mapp
          ∧ (getChangeLog mapp).root
              = subRoot (updateL (spliceL L m.rightmostProof.index rmi S)
                  (m.rightmostProof.index + rmi) v) m.maxDepth 0) := by
  subst hd
  obtain ⟨snaps, inv, hh⟩ := reach_inv hr
  subst hh
  have hp2d : 0 < 2 ^ proof.length := Nat.pos_pow_of_pos _ (by omega)
  have hrmilt : rmi - 1 < 2 ^ proof.length := by omega
  have hverif : subtreeRootOf rml proof (rmi - 1) = root := by
    unfold subtreeRootOf
    rw [hsibs, bubblePath_fst, recompute_sibList hrmilt, hrml, updateL_self, hroot]
  have hsucc : m.append_subtree_direct root rml rmi proof
      = Except.ok (spliceOk m root rml rmi proof) := by
    simp only [MerkleRoll.append_subtree_direct]
    rw [if_neg (by omega : ¬ m.maxDepth < proof.length)]
    rw [if_neg (by omega : ¬ m.rightmostProof.index % 2 ^ proof.length ≠ 0)]
    rw [if_neg (by omega : ¬ 2 ^ m.maxDepth < m.rightmostProof.index + 2 ^ proof.length)]
    rw [if_neg (by omega : ¬ (rmi = 0 ∨ 2 ^ proof.length < rmi))]
    rw [if_pos hverif]
  have hc_lt : m.rightmostProof.index / 2 ^ proof.length
      < 2 ^ (m.maxDepth - proof.length) := by
    have h1 : m.rightmostProof.index / 2 ^ proof.length * 2 ^ proof.length
        ≤ m.rightmostProof.index := Nat.div_mul_le_self _ _
    have h3 : 2 ^ m.maxDepth = 2 ^ (m.maxDepth - proof.length) * 2 ^ proof.length := by
      rw [← pow_add]
      congr 1
      omega
    have e : (m.rightmostProof.index / 2 ^ proof.length + 1) * 2 ^ proof.length
        = m.rightmostProof.index / 2 ^ proof.length * 2 ^ proof.length
          + 2 ^ proof.length := by ring
    have h2 : (m.rightmostProof.index / 2 ^ proof.length + 1) * 2 ^ proof.length
        ≤ 2 ^ (m.maxDepth - proof.length) * 2 ^ proof.length := by omega
    have h4 := Nat.le_of_mul_le_mul_right h2 hp2d
    omega
  have hupper :
      bubblePath root
        (appendSibs (m.rightmostProof.proof.drop proof.length)
          (m.rightmostProof.index / 2 ^ proof.length) proof.length)
        (m.rightmostProof.index / 2 ^ proof.length)
      = (subRoot (updateL (fun y => subRoot (snaps.getD 0 defaultSnap).L proof.length y)
            (m.rightmostProof.index / 2 ^ proof.length) (subRoot S proof.length 0))
          (m.maxDepth - proof.length) 0,
         pathList (updateL (fun y => subRoot (snaps.getD 0 defaultSnap).L proof.length y)
            (m.rightmostProof.index / 2 ^ proof.length) (subRoot S proof.length 0))
          (m.rightmostProof.index / 2 ^ proof.length) (m.maxDepth - proof.length)) := by
    rw [upper_sibs_eq inv hdD, hroot]
    exact bubblePath_correct (m.maxDepth - proof.length) _ _
      (m.rightmostProof.index / 2 ^ proof.length) 0
      (m.rightmostProof.index / 2 ^ proof.length)
      (by simp [Nat.mod_eq_of_lt hc_lt])
  have hupper2 : (bubblePath root
        (appendSibs (m.rightmostProof.proof.drop proof.length)
          (m.rightmostProof.index / 2 ^ proof.length) proof.length)
        (m.rightmostProof.index / 2 ^ proof.length)).2
      = pathList (updateL (fun y => subRoot (snaps.getD 0 defaultSnap).L proof.length y)
          (m.rightmostProof.index / 2 ^ proof.length) (subRoot S proof.length 0))
          (m.rightmostProof.index / 2 ^ proof.length) (m.maxDepth - proof.length) := by
    rw [hupper]
  have hroot_eq : subRoot (updateL
        (fun y => subRoot (snaps.getD 0 defaultSnap).L proof.length y)
        (m.rightmostProof.index / 2 ^ proof.length) (subRoot S proof.length 0))
        (m.maxDepth - proof.length) 0
      = subRoot (spliceL (snaps.getD 0 defaultSnap).L m.rightmostProof.index rmi S)
          m.maxDepth 0 := by
    have hdec := subRoot_decomp (m.maxDepth - proof.length)
      (spliceL (snaps.getD 0 defaultSnap).L m.rightmostProof.index rmi S) proof.length 0
    rw [show proof.length + (m.maxDepth - proof.length) = m.maxDepth from by omega] at hdec
    rw [hdec]
    exact subRoot_congr (m.maxDepth - proof.length) 0
      (fun y _ => (spliceCoarse_eq halign inv.empt hSempty hrmi2 y).symm)
  have hgc : (getChangeLog (spliceOk m root rml rmi proof)).root
      = subRoot (spliceL (snaps.getD 0 defaultSnap).L m.rightmostProof.index rmi S)
          m.maxDepth 0 := by
    show (getChangeLog (publish m _ _)).root = _
    rw [getChangeLog_publish _ _ _ (inv_active_lt inv) inv.clen]
    show (bubblePath root (appendSibs (m.rightmostProof.proof.drop proof.length)
        (m.rightmostProof.index / 2 ^ proof.length) proof.length)
        (m.rightmostProof.index / 2 ^ proof.length)).1 = _
    rw [hupper]
    exact hroot_eq
  have hbeyond : ∀ x, m.rightmostProof.index + rmi ≤ x →
      spliceL (snaps.getD 0 defaultSnap).L m.rightmostProof.index rmi S x
        = Node.empty := by
    intro x hx
    unfold spliceL
    rw [if_neg (fun hand => absurd hand.2 (by omega))]
    exact inv.empt x (by omega)
  refine ⟨spliceOk m root rml rmi proof, hsucc, hgc, rfl, hbeyond, ?_⟩
  intro hflt v
  have hplen2 : (spliceOk m root rml rmi proof).rightmostProof.proof.length
      = (spliceOk m root rml rmi proof).maxDepth := by
    show (proof ++ recordProof (m.rightmostProof.proof.drop proof.length) _
      (m.rightmostProof.index / 2 ^ proof.length)).length = m.maxDepth
    rw [List.length_append, recordProof_length, List.length_drop, inv.plen]
    omega
  have hlt2 : (spliceOk m root rml rmi proof).rightmostProof.index
      < 2 ^ (spliceOk m root rml rmi proof).maxDepth := hflt
  have ha2 : (spliceOk m root rml rmi proof).activeIndex
      < (spliceOk m root rml rmi proof).maxBufferSize := by
    show (m.activeIndex + 1) % m.maxBufferSize < m.maxBufferSize
    exact Nat.mod_lt _ (by have := inv.bpos; omega)
  have hclen2 : (spliceOk m root rml rmi proof).changeLogs.length
      = (spliceOk m root rml rmi proof).maxBufferSize := by
    show (m.changeLogs.set ((m.activeIndex + 1) % m.maxBufferSize) _).length
      = m.maxBufferSize
    rw [List.length_set]
    exact inv.clen
  have hem2 : ∀ j, (spliceOk m root rml rmi proof).rightmostProof.index ≤ j →
      spliceL (snaps.getD 0 defaultSnap).L m.rightmostProof.index rmi S j
        = Node.empty :=
    fun j hj => hbeyond j hj
  have hP2 : ∀ h, h < (spliceOk m root rml rmi proof).maxDepth →
      ((spliceOk m root rml rmi proof).rightmostProof.index / 2 ^ h) % 2 = 1 →
      (spliceOk m root rml rmi proof).rightmostProof.proof.getD h default
        = subRoot (spliceL (snaps.getD 0 defaultSnap).L m.rightmostProof.index rmi S) h
            ((spliceOk m root rml rmi proof).rightmostProof.index / 2 ^ h - 1) := by
    intro h hhD2 hbit0
    have hhD2a : h < m.maxDepth := hhD2
    have hbit : ((m.rightmostProof.index + rmi) / 2 ^ h) % 2 = 1 := hbit0
    show (proof ++ recordProof (m.rightmostProof.proof.drop proof.length)
        (bubblePath root (appendSibs (m.rightmostProof.proof.drop proof.length)
          (m.rightmostProof.index / 2 ^ proof.length) proof.length)
          (m.rightmostProof.index / 2 ^ proof.length)).2
        (m.rightmostProof.index / 2 ^ proof.length)).getD h default
      = subRoot (spliceL (snaps.getD 0 defaultSnap).L m.rightmostProof.index rmi S) h
          ((m.rightmostProof.index + rmi) / 2 ^ h - 1)
    by_cases hcase : h < proof.length
    · rw [List.getD_append _ _ _ _ hcase]
      have hp2h : 0 < 2 ^ h := Nat.pos_pow_of_pos h (by omega)
      obtain ⟨qi, hqi⟩ : 2 ^ h ∣ m.rightmostProof.index :=
        dvd_trans (pow_dvd_pow 2 (by omega : h ≤ proof.length))
          (Nat.dvd_of_mod_eq_zero halign)
      have hsplit : (m.rightmostProof.index + rmi) / 2 ^ h = qi + rmi / 2 ^ h := by
        rw [hqi, Nat.mul_add_div hp2h]
      have hqieven : qi % 2 = 0 := by
        obtain ⟨c0, hc0⟩ := Nat.dvd_of_mod_eq_zero halign
        obtain ⟨t0, ht0⟩ : ∃ t0, proof.length - h = t0 + 1 :=
          ⟨proof.length - h - 1, by omega⟩
        have e2 : 2 ^ proof.length = 2 ^ h * (2 ^ t0 * 2) := by
          rw [← pow_succ, ← pow_add]
          congr 1
          omega
        have he : 2 ^ proof.length * c0 = 2 ^ h * (2 * (2 ^ t0 * c0)) := by
          rw [e2]
          ring
        have hqi2 : qi = 2 * (2 ^ t0 * c0) :=
          Nat.eq_of_mul_eq_mul_left hp2h (by rw [← hqi, hc0, he])
        omega
      have hbit2 : (rmi / 2 ^ h) % 2 = 1 := by
        rw [hsplit] at hbit
        omega
      rw [hpP h hcase hbit2, hsplit]
      obtain ⟨w, hw⟩ : ∃ w, rmi / 2 ^ h = w + 1 :=
        ⟨rmi / 2 ^ h - 1, by generalize rmi / 2 ^ h = A at hbit2 ⊢; omega⟩
      rw [hw]
      rw [show qi + (w + 1) - 1 = qi + w from by omega,
        show w + 1 - 1 = w from by omega]
      refine (subRoot_shift h _ _ (qi + w) w ?_).symm
      intro x hx
      have hlo : (qi + w) * 2 ^ h ≤ x := by
        have hself := Nat.div_mul_le_self x (2 ^ h)
        rw [hx] at hself
        exact hself
      have hhi : x < (qi + w) * 2 ^ h + 2 ^ h := by
        have hdm := Nat.div_add_mod x (2 ^ h)
        have hml := Nat.mod_lt x hp2h
        rw [hx] at hdm
        have e : 2 ^ h * (qi + w) = (qi + w) * 2 ^ h := Nat.mul_comm _ _
        omega
      have ei : (qi + w) * 2 ^ h = m.rightmostProof.index + w * 2 ^ h := by
        have e : (qi + w) * 2 ^ h = 2 ^ h * qi + w * 2 ^ h := by ring
        omega
      have hwrmi : (w + 1) * 2 ^ h ≤ rmi := by
        have hself := Nat.div_mul_le_self rmi (2 ^ h)
        rw [hw] at hself
        exact hself
      have e3 : (w + 1) * 2 ^ h = w * 2 ^ h + 2 ^ h := by ring
      show spliceL (snaps.getD 0 defaultSnap).L m.rightmostProof.index rmi S x
        = S (x - (qi + w) * 2 ^ h + w * 2 ^ h)
      have hin : m.rightmostProof.index ≤ x ∧ x < m.rightmostProof.index + rmi := by
        constructor
        · omega
        · omega
      unfold spliceL
      rw [if_pos hin]
      congr 1
      omega
    · push_neg at hcase
      rw [List.getD_append_right _ _ _ _ hcase]
      rw [recordProof_getD _ _ _ (h - proof.length)
        (by rw [List.length_drop, inv.plen]; omega)
        (by rw [hupper2]; rw [List.length_drop, inv.plen, pathList_length])]
      rw [div_pow_add m.rightmostProof.index proof.length (h - proof.length)]
      rw [show proof.length + (h - proof.length) = h from by omega]
      have hp2h : 0 < 2 ^ h := Nat.pos_pow_of_pos h (by omega)
      have hle2 : (m.rightmostProof.index + rmi) / 2 ^ h
          ≤ m.rightmostProof.index / 2 ^ h + 1 := by
        have h2d2h : 2 ^ proof.length ≤ 2 ^ h := Nat.pow_le_pow_right (by omega) hcase
        have hstep : (m.rightmostProof.index + 2 ^ h) / 2 ^ h
            = m.rightmostProof.index / 2 ^ h + 1 := Nat.add_div_right _ hp2h
        have hmono : (m.rightmostProof.index + rmi) / 2 ^ h
            ≤ (m.rightmostProof.index + 2 ^ h) / 2 ^ h :=
          Nat.div_le_div_right (by omega)
        omega
      have hle1 : m.rightmostProof.index / 2 ^ h
          ≤ (m.rightmostProof.index + rmi) / 2 ^ h :=
        Nat.div_le_div_right (by omega)
      by_cases hcr : (m.rightmostProof.index + rmi) / 2 ^ h
          = m.rightmostProof.index / 2 ^ h
      · have hbitI : (m.rightmostProof.index / 2 ^ h) % 2 = 1 := by
          rw [← hcr]
          exact hbit
        rw [if_pos hbitI]
        rw [getD_drop default proof.length m.rightmostProof.proof (h - proof.length)]
        rw [show proof.length + (h - proof.length) = h from by omega]
        rw [inv.rmpP h hhD2a hbitI, hcr]
        refine subRoot_congr h _ ?_
        intro x hx
        have hIpos : 1 ≤ m.rightmostProof.index / 2 ^ h := by
          generalize m.rightmostProof.index / 2 ^ h = A at hbitI ⊢
          omega
        have hxlt : x < m.rightmostProof.index / 2 ^ h * 2 ^ h := by
          by_contra hge
          push_neg at hge
          have hge2 : m.rightmostProof.index / 2 ^ h ≤ x / 2 ^ h :=
            (Nat.le_div_iff_mul_le hp2h).mpr hge
          omega
        have hIle : m.rightmostProof.index / 2 ^ h * 2 ^ h ≤ m.rightmostProof.index :=
          Nat.div_mul_le_self _ _
        show (snaps.getD 0 defaultSnap).L x
          = spliceL (snaps.getD 0 defaultSnap).L m.rightmostProof.index rmi S x
        unfold spliceL
        rw [if_neg (fun hand => absurd hand.1 (by omega))]
      · have hcr2 : (m.rightmostProof.index + rmi) / 2 ^ h
            = m.rightmostProof.index / 2 ^ h + 1 := by omega
        have hbitI : ¬ (m.rightmostProof.index / 2 ^ h) % 2 = 1 := by
          rw [hcr2] at hbit
          omega
        rw [if_neg hbitI]
        rw [hupper2]
        rw [pathList_getD _ _ _ (h - proof.length) (by omega)]
        rw [div_pow_add m.rightmostProof.index proof.length (h - proof.length)]
        rw [show proof.length + (h - proof.length) = h from by omega]
        rw [hcr2, Nat.add_sub_cancel]
        have hdec := subRoot_decomp (h - proof.length)
          (spliceL (snaps.getD 0 defaultSnap).L m.rightmostProof.index rmi S)
          proof.length (m.rightmostProof.index / 2 ^ h)
        rw [show proof.length + (h - proof.length) = h from by omega] at hdec
        rw [hdec]
        exact subRoot_congr (h - proof.length) _
          (fun y _ => (spliceCoarse_eq halign inv.empt hSempty hrmi2 y).symm)
  obtain ⟨hok, hrt⟩ := appendOk_root_of v hplen2 hlt2 hP2 hem2 ha2 hclen2
  exact ⟨appendOk (spliceOk m root rml rmi proof) v, hok, hrt⟩

/-- Witness for C5: the half-filled depth-2 subtree (leaves at its slots 0
and 1) spliced onto the aligned frontier 4 of a four-leaf depth-5 roll —
the call succeeds, the root matches the reference splice, the frontier
advances to 6 (inside the subtree), slots from 6 on stay EMPTY, and a
subsequent append at slot 6 again matches the reference. -/
theorem C5_aligned_subtree_splice_witness :
    ∃ msp, c5Big4.append_subtree_direct (getChangeLog c5Sub2).root
        c5Sub2.rightmostProof.leaf c5Sub2.rightmostProof.index
        c5Sub2.rightmostProof.proof = Except.ok msp
      ∧ (getChangeLog msp).root
          = subRoot (spliceL c5L4 c5Big4.rightmostProof.index
              c5Sub2.rightmostProof.index c5S2) c5Big4.maxDepth 0
      ∧ msp.rightmostProof.index
          = c5Big4.rightmostProof.index + c5Sub2.rightmostProof.index
      ∧ (∀ x, c5Big4.rightmostProof.index + c5Sub2.rightmostProof.index ≤ x →
          spliceL c5L4 c5Big4.rightmostProof.index c5Sub2.rightmostProof.index c5S2 x
            = Node.empty)
      ∧ (c5Big4.rightmostProof.index + c5Sub2.rightmostProof.index
            < 2 ^ c5Big4.maxDepth → ∀ v, ∃ mapp,
          msp.append v = Except.ok mapp
          ∧ (getChangeLog mapp).root
              = subRoot (updateL (spliceL c5L4 c5Big4.rightmostProof.index
                  c5Sub2.rightmostProof.index c5S2)
                  (c5Big4.rightmostProof.index + c5Sub2.rightmostProof.index) v)
                  c5Big4.maxDepth 0) := by
  refine C5_aligned_subtree_splice
    (show Reach c5Big4 c5L4 from
      Reach.app (Node.leaf 3)
        (Reach.app (Node.leaf 2)
          (Reach.app (Node.leaf 1)
            (Reach.app (Node.leaf 0) (Reach.init 5 8 (by decide)) (by decide))
            (by decide))
          (by decide))
        (by decide))
    rfl (by decide) (by decide) (by decide) (by decide) (by decide)
    ?_ rfl rfl rfl ?_
  · intro x hx
    show (natLeaves 20 2).getD x Node.empty = Node.empty
    exact List.getD_eq_default _ _ (by simpa [natLeaves] using hx)
  · intro h hhl hb
    have hh2 : h < 2 := hhl
    interval_cases h
    · exact absurd hb (by decide)
    · rfl

/-- Counterexample to C5 as stated: splicing a half-filled depth-2 subtree
(two of four leaves) onto the aligned frontier 4 makes the subtree occupy
slots 4–7, so the claim puts the next ordinary append past it, at slot 8; the
engine instead sets the frontier to 6 and the next append lands at slot 6,
inside the spliced subtree. -/
theorem C5_counterexample :
    c5Spliced.rightmostProof.index = 6
    ∧ (getChangeLog c5NextI).index = 6
    ∧ ¬ (8 ≤ (getChangeLog c5NextI).index) :=
  ⟨rfl, rfl, by decide⟩

/-- C6: `append_subtree_packed` at the unaligned frontier 1.  With a full
depth-3 subtree `l0 … l7` decomposed into pieces of sizes 1, 1, 2, 4, the
final frontier is 9 and the root equals the reference with `l6` at slot 1,
`l4` at 2, `l5` at 3, `l0 … l3` at 4–7 and `l7` at 8; with a full depth-1
subtree `m0, m1` the final frontier is 3 and the root equals the reference
with `m1` at slot 1 and `m0` at slot 2. -/
theorem C6_packed_subtree_order :
    c6Packed3 = Except.ok c6m3Done
    ∧ c6m3Done.rightmostProof.index = 9
    ∧ (getChangeLog c6m3Done).root = subRoot c6L3 4 0
    ∧ c6Packed1 = Except.ok c6m1Done
    ∧ c6m1Done.rightmostProof.index = 3
    ∧ (getChangeLog c6m1Done).root = subRoot c6L1 4 0 :=
  ⟨rfl, rfl, rfl, rfl, rfl, rfl⟩

/-- C8: `RawLeafSchema::to_node` returns
`keccak256(owner ∥ delegate ∥ nonce_le_bytes ∥ keccak256(data))`; the nonce
segment is exactly the 16 little-endian bytes of the `u128` nonce — 16 bytes
long, value-faithful for every nonce below `2^128`, every entry a byte. -/
theorem C8_to_node_formula (keccak : Bytes → Bytes) (owner delegate : Bytes)
    (nonce : Nat) (data : Bytes) :
    (RawLeafSchema.new owner delegate nonce data).to_node keccak
      = keccak (owner ++ delegate ++ nonceLeBytes nonce ++ keccak data)
    ∧ (nonceLeBytes nonce).length = 16
    ∧ (nonce < 2 ^ 128 → fromLeBytes (nonceLeBytes nonce) = nonce)
    ∧ (∀ b ∈ nonceLeBytes nonce, b < 256) := by
  refine ⟨rfl, leBytes_length 16 nonce, ?_, leBytes_lt 16 nonce⟩
  intro hn
  show fromLeBytes (leBytes 16 nonce) = nonce
  rw [fromLeBytes_leBytes]
  have h2 : (256 : Nat) ^ 16 = 2 ^ 128 := by norm_num
  rw [h2, Nat.mod_eq_of_lt hn]

/-- Witness for C8: the nonce 5 round-trips through its 16 little-endian
bytes. -/
theorem C8_to_node_formula_witness :
    fromLeBytes (nonceLeBytes 5) = 5 ∧ (nonceLeBytes 5).length = 16 :=
  ⟨(C8_to_node_formula (fun b => 7 :: b) [1] [2] 5 [3]).2.2.1 (by decide),
   (C8_to_node_formula (fun b => 7 :: b) [1] [2] 5 [3]).2.1⟩

/-- C9 (amended): `set_leaf` is idempotent on the root.  From any reachable
state, a successful `set_leaf(root, x, x, proof, i)` — same old and new leaf
value — leaves `get_change_log().root` unchanged and increments
`sequence_number` by exactly 1; `rightmost_proof.index` is unchanged when
`i` lies strictly below the frontier, but when `i` is the frontier slot
itself (whose EMPTY leaf also has currently valid proofs) the successful
call advances `rightmost_proof.index` to `i + 1` (spec §4.3 step 5,
`test_append_bug_repro_2`). -/
theorem C9_set_leaf_idempotent_on_root {m : MerkleRoll} {L : LeafF}
    (hr : Reach m L) {root x : Node} {pf : List Node} {i : Nat} {m' : MerkleRoll}
    (hs : m.set_leaf root x x pf i = Except.ok m') :
    (getChangeLog m').root = (getChangeLog m).root
    ∧ m'.sequenceNumber = m.sequenceNumber + 1
    ∧ (i < m.rightmostProof.index → m'.rightmostProof.index = m.rightmostProof.index)
    ∧ (i = m.rightmostProof.index →
        m'.rightmostProof.index = m.rightmostProof.index + 1) := by
  obtain ⟨snaps, inv, hh⟩ := reach_inv hr
  obtain ⟨hi, hlen, hidx, d, hfind, hver, hbr⟩ := set_leaf_inv hs
  rcases hbr with ⟨hlt, hm'⟩ | ⟨heq, hm'⟩
  · subst hm'
    refine ⟨?_, rfl, fun _ => rfl, fun hc => absurd hc (by omega)⟩
    have hroot : getChangeLog (setLeafOk m x (fastForward m i pf d) i)
        = { root := (bubblePath x (fastForward m i pf d) i).1,
            path := (bubblePath x (fastForward m i pf d) i).2, index := i } := by
      show getChangeLog (publish m _ _) = _
      exact getChangeLog_publish m _ _ (inv_active_lt inv) inv.clen
    rw [hroot]
    show (bubblePath x (fastForward m i pf d) i).1 = _
    rw [bubblePath_fst]
    exact hver
  · subst hm'
    refine ⟨?_, rfl, fun hc => absurd hc (by omega),
      fun _ => by show i + 1 = m.rightmostProof.index + 1; omega⟩
    have hroot : getChangeLog (setLeafFrontierOk m x (fastForward m i pf d) i)
        = { root := (bubblePath x (fastForward m i pf d) i).1,
            path := (bubblePath x (fastForward m i pf d) i).2, index := i } := by
      show getChangeLog (publish m _ _) = _
      exact getChangeLog_publish m _ _ (inv_active_lt inv) inv.clen
    rw [hroot]
    show (bubblePath x (fastForward m i pf d) i).1 = _
    rw [bubblePath_fst]
    exact hver

/-- Witness for C9 (amended): re-setting slot 0 of the one-leaf depth-2 roll
to its current value keeps the root, bumps the sequence number and keeps the
frontier. -/
theorem C9_set_leaf_idempotent_on_root_witness :
    (getChangeLog c9m2).root = (getChangeLog c3m1).root
    ∧ c9m2.sequenceNumber = c3m1.sequenceNumber + 1
    ∧ c9m2.rightmostProof.index = c3m1.rightmostProof.index := by
  have h := C9_set_leaf_idempotent_on_root
    (Reach.app (Node.leaf 1) (Reach.init 2 4 (by decide)) (by decide))
    (rfl : c3m1.set_leaf (subRoot c3L1 2 0) (Node.leaf 1) (Node.leaf 1) (sibList c3L1 0 2) 0
      = Except.ok c9m2)
  exact ⟨h.1, h.2.1, h.2.2.1 (by decide)⟩

/-- Counterexample to C9 as stated: the EMPTY frontier slot of the one-leaf
depth-2 roll (index 1 = rightmost_proof.index) has a currently valid proof,
and the successful `set_leaf(root, EMPTY, EMPTY, proof, 1)` keeps the root
and advances `sequence_number`, but it CHANGES `rightmost_proof.index` from
1 to 2, contradicting the claim that a successful idempotent `set_leaf`
leaves `rightmost_proof.index` unchanged for every index with a currently
valid proof. -/
theorem C9_counterexample :
    c3m1.set_leaf (subRoot c3L1 2 0) Node.empty Node.empty (sibList c3L1 1 2) 1
      = Except.ok c9f
    ∧ c3m1.rightmostProof.index = 1
    ∧ c9f.rightmostProof.index = 2
    ∧ (getChangeLog c9f).root = (getChangeLog c3m1).root
    ∧ c9f.sequenceNumber = c3m1.sequenceNumber + 1 :=
  ⟨rfl, rfl, rfl, rfl, rfl⟩

/-- C10: the two leaf-schema variants agree — for every owner, delegate,
nonce and data byte-vector, `RawLeafSchema::new(o,d,n,data).to_node()` equals
`LeafSchema::new(o,d,n,keccak256(data)).to_node()`. -/
theorem C10_schema_agreement (keccak : Bytes → Bytes) (owner delegate : Bytes)
    (nonce : Nat) (data : Bytes) :
    (RawLeafSchema.new owner delegate nonce data).to_node keccak
      = (LeafSchema.new owner delegate nonce (keccak data)).to_node keccak := rfl

end Candyland
